import Mathlib

/-!
Verification of the bytecheck manifest engine against its specification.

The definitions below are a shallow embedding of the Go sources:
  * `pkg/manifest/manifest.go`, `pkg/manifest/hmac.go` (Entity, Manifest,
    HMAC binding, load/save, auditor accessors),
  * `pkg/manifest/compare.go` (manifest comparison),
  * `pkg/generator/manifest_processor.go` (signed / unsigned processors),
  * `pkg/verifier/manifest_auditor.go` and `pkg/certification/certs.go`
    (two-step audit verification),
  * the scanner (`scanDirectory`), the post-order walker
    (`traverse.WalkPostOrder`) and the generator callback,
  * the issuer-trust resolver (`pkg/issuer/verifier.go` and the
    URL-based sub-verifier).

Cryptographic primitives (SHA-256, HMAC-SHA256, ed25519) are modelled as
explicit function parameters: the theorems below are about which bytes are
fed to those primitives and how the results flow, never about the
primitives themselves.  Byte strings (`[]byte` in Go) are modelled as
`String` (a Go string is an arbitrary byte sequence; all concrete inputs
used here are ASCII).  The filesystem is modelled explicitly: a `Store` is
the ordered log of manifest-file writes, and `FileState` describes one
stored manifest file from the point of view of `LoadManifest`.
-/

namespace Bytecheck

/-- Entity mirrors `manifest.Entity`: one immediate child of a directory,
with JSON field names `name`, `checksum`, `isDir`. -/
structure Entity where
  name : String
  checksum : String
  isDir : Bool
deriving DecidableEq, Repr

/-- CertificateData is the JSON-serializable certificate carried inside the
auditor block.  Modelled from the spec: the certificate struct of the
current `pkg/manifest` (wire fields `publicKey`, `signature`,
`issuerPublicKey`, `issuerReference`, see spec section 6 and the assertions
on `certData.IssuerRef` in `pkg/manifest/manifest_test.go`) is absent from
the snapshot, which only carries a stale variant; the stale variant is
embedded separately as `CertificateDataSrc` below. -/
structure CertificateData where
  publicKey : String
  signature : String
  issuerPublicKey : String
  issuerRef : String
deriving DecidableEq, Repr

/-- AuditorData mirrors `manifest.AuditorData` (wire fields `timestamp`,
`certificate`, `manifestSignature`).  The timestamp is kept as its rendered
RFC 3339 string. -/
structure AuditorData where
  timestamp : String
  certificate : CertificateData
  manifestSignature : String
deriving DecidableEq, Repr

/-- Manifest mirrors `manifest.Manifest`: wire fields `entities`, `hmac`
and the optional `auditor` (tagged `omitempty`).  The `hmac` field carries
no `omitempty` tag, a fact the HMAC-input theorems depend on. -/
structure Manifest where
  entities : List Entity
  hmac : String
  auditor : Option AuditorData
deriving DecidableEq, Repr

/-! JSON serialization, mirroring Go `encoding/json` for these structs. -/

/-- Lowercase hexadecimal digit, as used by Go for `\u00XX` escapes and by
`encoding/hex`. -/
def hexDigitLower (n : Nat) : Char :=
  if n < 10 then Char.ofNat (48 + n) else Char.ofNat (87 + n)

/-- Escaping of one character by Go `encoding/json` (HTML escaping on, the
default used by `json.Marshal`). -/
def goEscapeChar (c : Char) : List Char :=
  if c = '"' then ['\\', '"']
  else if c = '\\' then ['\\', '\\']
  else if c = '\n' then ['\\', 'n']
  else if c = '\r' then ['\\', 'r']
  else if c = '\t' then ['\\', 't']
  else if c.toNat < 32 then
    ['\\', 'u', '0', '0', hexDigitLower (c.toNat / 16), hexDigitLower (c.toNat % 16)]
  else if c = '<' then ['\\', 'u', '0', '0', '3', 'c']
  else if c = '>' then ['\\', 'u', '0', '0', '3', 'e']
  else if c = '&' then ['\\', 'u', '0', '0', '2', '6']
  else if c.toNat = 8232 then ['\\', 'u', '2', '0', '2', '8']
  else if c.toNat = 8233 then ['\\', 'u', '2', '0', '2', '9']
  else [c]

/-- Go JSON string literal for `s` (quotes plus escaping). -/
def goQuote (s : String) : String :=
  ⟨'"' :: (s.data.flatMap goEscapeChar ++ ['"'])⟩

/-- Compact JSON of one `Entity`, field order as declared in the struct. -/
def serializeEntity (e : Entity) : String :=
  "\x7b\"name\":" ++ goQuote e.name ++ ",\"checksum\":" ++ goQuote e.checksum
    ++ ",\"isDir\":" ++ (if e.isDir then "true" else "false") ++ "\x7d"

/-- Compact JSON of the entity slice.  The scanner always builds a non-nil
slice (`make([]Entity, 0)`), so the empty list renders as `[]`; the `nil`
slice (which Go would render as `null`) does not occur on the save path and
is not modelled. -/
def serializeEntityList (es : List Entity) : String :=
  "[" ++ String.intercalate "," (es.map serializeEntity) ++ "]"

/-- Compact JSON of `CertificateData` (current wire shape, see above). -/
def serializeCertificateData (c : CertificateData) : String :=
  "\x7b\"publicKey\":" ++ goQuote c.publicKey ++ ",\"signature\":" ++ goQuote c.signature
    ++ ",\"issuerPublicKey\":" ++ goQuote c.issuerPublicKey
    ++ ",\"issuerReference\":" ++ goQuote c.issuerRef ++ "\x7d"

/-- Compact JSON of `AuditorData`. -/
def serializeAuditorData (a : AuditorData) : String :=
  "\x7b\"timestamp\":" ++ goQuote a.timestamp
    ++ ",\"certificate\":" ++ serializeCertificateData a.certificate
    ++ ",\"manifestSignature\":" ++ goQuote a.manifestSignature ++ "\x7d"

/-- Compact JSON of a `Manifest`, as produced by `json.Marshal`: the `hmac`
field is always present (no `omitempty`), the `auditor` field is omitted
when nil (`omitempty`). -/
def serializeManifest (m : Manifest) : String :=
  "\x7b\"entities\":" ++ serializeEntityList m.entities
    ++ ",\"hmac\":" ++ goQuote m.hmac
    ++ (match m.auditor with
        | none => ""
        | some a => ",\"auditor\":" ++ serializeAuditorData a)
    ++ "\x7d"

/-! The HMAC binding (`manifest.calculateHMAC` in `manifest.go` together
with the keyed helper in `hmac.go`). -/

/-- HMACFn abstracts HMAC-SHA256: key and data in, hex digest out. -/
abbrev HMACFn := String → String → String

/-- Built-in HMAC key from `pkg/manifest/hmac.go`. -/
def DEFAULT_HMAC_KEY : String := "this-is-obscurity-key-that"

/-- Key selection of `calculateHMAC(data)` in `hmac.go`: the value of the
`BYTECHECK_HMAC_KEY` environment variable when set, else the built-in
default.  `env` is the looked-up value of that variable. -/
def hmacKeyOf (env : Option String) : String :=
  match env with
  | some v => v
  | none => DEFAULT_HMAC_KEY

/-- The byte string over which `(m *Manifest) calculateHMAC` computes the
HMAC: `json.Marshal` of a Manifest copy holding only the entities.  Since
the `hmac` field has no `omitempty` tag, the copy serializes with a
zero-valued `"hmac":""` field; the auditor field (omitempty, nil) is
absent. -/
def hmacInput (es : List Entity) : String :=
  serializeManifest ⟨es, "", none⟩

/-- The HMAC value that `calculateHMAC` assigns to `m.HMAC`. -/
def manifestHMAC (hf : HMACFn) (env : Option String) (es : List Entity) : String :=
  hf (hmacKeyOf env) (hmacInput es)

/-! Entity sorting (`sort.Slice` by `Name <` in `New` and `LoadManifest`).
Go compares strings byte-wise; `goLtb` is that comparison (on code points,
which agrees with byte order for UTF-8). -/

/-- Byte-wise string comparison of Go, `a < b`. -/
def goLtb : List Char → List Char → Bool
  | [], [] => false
  | [], _ :: _ => true
  | _ :: _, [] => false
  | a :: as, b :: bs =>
    if a.toNat < b.toNat then true
    else if b.toNat < a.toNat then false
    else goLtb as bs

/-- Strict Go string order. -/
def strLt (a b : String) : Prop := goLtb a.data b.data = true

/-- Reflexive Go string order: `a ≤ b` iff not `b < a`. -/
def strLe (a b : String) : Prop := goLtb b.data a.data = false

instance : DecidableRel strLt := fun _ _ => inferInstanceAs (Decidable (_ = true))

instance : DecidableRel strLe := fun _ _ => inferInstanceAs (Decidable (_ = false))

/-- Asymmetry of the byte-wise order. -/
theorem goLtb_asymm : ∀ la lb, goLtb la lb = true → goLtb lb la = false := by
  intro la
  induction la with
  | nil => intro lb h; cases lb with
    | nil => simp [goLtb] at h
    | cons b bs => simp [goLtb]
  | cons a as ih =>
    intro lb h
    cases lb with
    | nil => simp [goLtb] at h
    | cons b bs =>
      simp only [goLtb] at h ⊢
      by_cases hab : a.toNat < b.toNat
      · simp only [if_pos hab]
        have : ¬ b.toNat < a.toNat := by omega
        simp [this, hab]
      · by_cases hba : b.toNat < a.toNat
        · simp [hab, hba] at h
        · simp only [if_neg hab, if_neg hba] at h ⊢
          exact ih bs h

/-- Transitivity of the byte-wise `≤` (stated on the boolean order). -/
theorem goLtb_false_trans :
    ∀ lc lb la, goLtb lb la = false → goLtb lc lb = false → goLtb lc la = false := by
  intro lc
  induction lc with
  | nil =>
    intro lb la h1 h2
    cases la with
    | nil => rfl
    | cons a as =>
      cases lb with
      | nil => simp [goLtb] at h1
      | cons b bs => simp [goLtb] at h2
  | cons c cs ih =>
    intro lb la h1 h2
    cases la with
    | nil => rfl
    | cons a as =>
      cases lb with
      | nil => simp [goLtb] at h1
      | cons b bs =>
        simp only [goLtb] at h1 h2 ⊢
        by_cases hba : b.toNat < a.toNat
        · simp [hba] at h1
        · by_cases hcb : c.toNat < b.toNat
          · simp [hcb] at h2
          · have hca : ¬ c.toNat < a.toNat := by omega
            simp only [if_neg hca]
            by_cases hac : a.toNat < c.toNat
            · simp [hac]
            · simp only [if_neg hac]
              have hab : ¬ a.toNat < b.toNat := by omega
              have hbc : ¬ b.toNat < c.toNat := by omega
              simp only [if_neg hba, if_neg hab] at h1
              simp only [if_neg hcb, if_neg hbc] at h2
              exact ih bs as h1 h2

/-- Ordering used to sort entities: ascending by name. -/
def entLE (a b : Entity) : Prop := strLe a.name b.name

instance : DecidableRel entLE := fun _ _ => inferInstanceAs (Decidable (_ = false))

instance : IsTotal Entity entLE := by
  refine ⟨fun a b => ?_⟩
  by_cases h : goLtb b.name.data a.name.data = true
  · exact Or.inr (goLtb_asymm _ _ h)
  · exact Or.inl (by simpa [entLE, strLe] using h)

instance : IsTrans Entity entLE :=
  ⟨fun _ _ c h h' => goLtb_false_trans c.name.data _ _ h h'⟩

/-- Sorting of the entity slice by ascending name. -/
def sortEnts (es : List Entity) : List Entity := List.insertionSort entLE es

/-- `manifest.New`: sort the entities, leave the HMAC empty, no auditor. -/
def manifestNew (es : List Entity) : Manifest := ⟨sortEnts es, "", none⟩

/-- `(m *Manifest) Save`, restricted to the value written: recompute the
HMAC over the entities-only projection, then marshal.  The write itself is
modelled by `Store.write` below. -/
def saveManifest (hf : HMACFn) (env : Option String) (m : Manifest) : Manifest :=
  { m with hmac := manifestHMAC hf env m.entities }

/-- `(m *Manifest) DataWithoutAuditor`: marshal a copy with the auditor
field cleared. -/
def dataWithoutAuditor (m : Manifest) : String :=
  serializeManifest { m with auditor := none }

/-! C1.  The spec claims the HMAC input is the JSON of the `{entities}`
projection alone, with no hmac field at all.  The code marshals a Manifest
copy whose `HMAC` field is the zero value, and that field has no
`omitempty` tag, so the input does contain `"hmac":""`. -/

/-- The HMAC input as the claim describes it: the JSON serialization of the
`{entities}` projection alone, containing neither an hmac field nor an
auditor field.  This definition follows the spec words, for comparison with
`hmacInput`, which follows the code. -/
def specEntitiesOnlyJson (es : List Entity) : String :=
  "\x7b\"entities\":" ++ serializeEntityList es ++ "\x7d"

/-- C1, counterexample: at a concrete one-entity manifest the HMAC input
computed by the code is not the `{entities}`-projection-alone JSON the
claim describes; it carries a zero-valued `"hmac":""` field. -/
theorem hmacInput_ne_spec_projection :
    hmacInput [⟨"a.txt", "ab", false⟩]
        = "\x7b\"entities\":[\x7b\"name\":\"a.txt\",\"checksum\":\"ab\",\"isDir\":false\x7d],\"hmac\":\"\"\x7d"
      ∧ hmacInput [⟨"a.txt", "ab", false⟩]
        ≠ specEntitiesOnlyJson [⟨"a.txt", "ab", false⟩] := by
  constructor
  · rfl
  · decide

/-- C1, amended: the hmac value computed by save (and recomputed by load)
equals HMAC-SHA256 of the JSON serialization of a manifest copy holding the
entities together with a zero-valued `"hmac":""` field and no auditor
field; the key is the value of `BYTECHECK_HMAC_KEY` when set, else the
built-in default. -/
theorem save_load_hmac_amended (hf : HMACFn) (env : Option String) (m : Manifest) :
    (saveManifest hf env m).hmac = hf (hmacKeyOf env) (hmacInput m.entities)
      ∧ hmacInput m.entities
          = "\x7b\"entities\":" ++ serializeEntityList m.entities ++ ",\"hmac\":\"\"\x7d"
      ∧ hmacKeyOf none = DEFAULT_HMAC_KEY
      ∧ (∀ v, hmacKeyOf (some v) = v) := by
  refine ⟨rfl, ?_, rfl, fun _ => rfl⟩
  apply String.ext
  simp [hmacInput, serializeManifest, goQuote, String.data_append]

/-! Loading (`manifest.LoadManifest`).  The filesystem read and
`json.Unmarshal` are modelled by `FileState`: the file is absent, cannot be
read, holds bytes that are not valid JSON, or holds the JSON of a stored
manifest (for the struct at hand `json.Unmarshal` recovers exactly the
marshalled value, so a parseable file is identified with the manifest it
encodes). -/

/-- FileState of one manifest path, as observed by `LoadManifest`. -/
inductive FileState where
  | absent
  | unreadable
  | badJson
  | stored (m : Manifest)
deriving DecidableEq, Repr

/-- LoadResult of `LoadManifest`: the null sentinel `(nil, nil)`, one of
the error returns, or the loaded manifest. -/
inductive LoadResult where
  | noManifest
  | ioError
  | parseError
  | invalidHmac
  | ok (m : Manifest)
deriving DecidableEq, Repr

/-- `manifest.LoadManifest`: null sentinel when the file does not exist,
read errors and JSON errors propagate, then the entities are re-sorted, the
HMAC is recomputed with the same rule as save and compared against the
stored value.  (The `calculateHMAC` marshalling error branch is dead code:
marshalling this struct cannot fail.) -/
def loadManifest (hf : HMACFn) (env : Option String) (fs : FileState) : LoadResult :=
  match fs with
  | .absent => .noManifest
  | .unreadable => .ioError
  | .badJson => .parseError
  | .stored m0 =>
    let sorted := sortEnts m0.entities
    let recomputed := manifestHMAC hf env sorted
    if m0.hmac ≠ recomputed then .invalidHmac
    else .ok ⟨sorted, recomputed, m0.auditor⟩

/-- Sorted output of `sortEnts`. -/
theorem sortEnts_sorted (es : List Entity) : List.Sorted entLE (sortEnts es) :=
  List.sorted_insertionSort entLE es

/-- Permutation property of `sortEnts`. -/
theorem sortEnts_perm (es : List Entity) : (sortEnts es).Perm es :=
  List.perm_insertionSort entLE es

/-- C5: `LoadManifest` returns the null sentinel exactly when the file does
not exist; a file that is not valid JSON yields the parse error; a stored
manifest yields the invalid-HMAC error exactly when the HMAC recomputed
over the re-sorted entities differs from the stored value, and otherwise
the parsed manifest with its entities re-sorted ascending by name. -/
theorem loadManifest_spec (hf : HMACFn) (env : Option String) (fs : FileState) :
    (loadManifest hf env fs = .noManifest ↔ fs = .absent)
      ∧ (fs = .badJson → loadManifest hf env fs = .parseError)
      ∧ (∀ m0, fs = .stored m0 →
          ((loadManifest hf env fs = .invalidHmac
              ↔ m0.hmac ≠ manifestHMAC hf env (sortEnts m0.entities))
            ∧ (m0.hmac = manifestHMAC hf env (sortEnts m0.entities) →
                loadManifest hf env fs
                    = .ok ⟨sortEnts m0.entities, m0.hmac, m0.auditor⟩
                  ∧ List.Sorted entLE (sortEnts m0.entities)))) := by
  refine ⟨?_, ?_, ?_⟩
  · cases fs with
    | absent => simp [loadManifest]
    | unreadable => simp [loadManifest]
    | badJson => simp [loadManifest]
    | stored m0 =>
      simp only [loadManifest]
      constructor
      · intro h
        by_cases hh : m0.hmac = manifestHMAC hf env (sortEnts m0.entities) <;>
          simp [hh] at h
      · intro h
        exact absurd h (by simp)
  · intro h; subst h; rfl
  · intro m0 h
    subst h
    constructor
    · constructor
      · intro h
        by_contra hne
        simp [loadManifest, hne] at h
      · intro h
        simp [loadManifest, h]
    · intro h
      refine ⟨?_, sortEnts_sorted m0.entities⟩
      simp [loadManifest, h]

/-- C5, witness: a concrete stored manifest whose hmac matches loads to the
sorted manifest; a missing file loads to the null sentinel. -/
theorem loadManifest_spec_witness :
    loadManifest (fun k d => "mac:" ++ k ++ ":" ++ d) none
        (.stored ⟨[⟨"b", "2", false⟩, ⟨"a", "1", true⟩],
          "mac:" ++ DEFAULT_HMAC_KEY ++ ":" ++ hmacInput [⟨"a", "1", true⟩, ⟨"b", "2", false⟩],
          none⟩)
      = .ok ⟨[⟨"a", "1", true⟩, ⟨"b", "2", false⟩],
          "mac:" ++ DEFAULT_HMAC_KEY ++ ":" ++ hmacInput [⟨"a", "1", true⟩, ⟨"b", "2", false⟩],
          none⟩ := by
  have h := (loadManifest_spec (fun k d => "mac:" ++ k ++ ":" ++ d) none
    (.stored ⟨[⟨"b", "2", false⟩, ⟨"a", "1", true⟩],
      "mac:" ++ DEFAULT_HMAC_KEY ++ ":" ++ hmacInput [⟨"a", "1", true⟩, ⟨"b", "2", false⟩],
      none⟩)).2.2 _ rfl
  have h2 := (h.2 (by decide)).1
  simpa using h2

/-! Comparison (`pkg/manifest/compare.go`).  Go maps are modelled as
association lists with unique keys: `mapInsert` is map assignment
(last write wins), `mapLookup` is map indexing.  Go iterates maps in an
unspecified order; the model iterates in first-insertion order, and every
statement proved below is insensitive to that choice (the per-name filter
results and emptiness do not depend on block order). -/

/-- Map assignment `m[k] = v`. -/
def mapInsert {α : Type} (m : List (String × α)) (k : String) (v : α) : List (String × α) :=
  if m.any (fun p => p.1 == k) then
    m.map (fun p => if p.1 == k then (k, v) else p)
  else m ++ [(k, v)]

/-- Map indexing `m[k]` (`none` when absent). -/
def mapLookup {α : Type} (m : List (String × α)) (k : String) : Option α :=
  (m.find? (fun p => p.1 == k)).map (·.2)

/-- Keys of a modelled map. -/
def mapKeys {α : Type} (m : List (String × α)) : List String := m.map (·.1)

theorem mapKeys_cons {α : Type} (p : String × α) (m : List (String × α)) :
    mapKeys (p :: m) = p.1 :: mapKeys m := rfl

theorem mem_mapKeys_of_mem {α : Type} {q : String × α} {m : List (String × α)}
    (h : q ∈ m) : q.1 ∈ mapKeys m := List.mem_map_of_mem (fun r => r.1) h

theorem mapKeys_nodup_cons {α : Type} {p : String × α} {m : List (String × α)}
    (hn : (mapKeys (p :: m)).Nodup) : p.1 ∉ mapKeys m ∧ (mapKeys m).Nodup := by
  rw [mapKeys_cons] at hn
  exact List.nodup_cons.mp hn

theorem mapKeys_insert {α : Type} (m : List (String × α)) (k : String) (v : α) :
    mapKeys (mapInsert m k v)
      = if (m.any fun p => p.1 == k) = true then mapKeys m else mapKeys m ++ [k] := by
  by_cases h : (m.any fun p => p.1 == k) = true
  · rw [if_pos h]
    unfold mapInsert mapKeys
    rw [if_pos h, List.map_map]
    apply List.map_congr_left
    intro p _
    simp only [Function.comp_apply]
    by_cases hpk : (p.1 == k) = true
    · rw [if_pos hpk]
      exact (eq_of_beq hpk).symm
    · rw [if_neg hpk]
  · rw [if_neg h]
    unfold mapInsert mapKeys
    rw [if_neg h, List.map_append]
    rfl

theorem mapKeys_nodup_insert {α : Type} (m : List (String × α)) (k : String) (v : α)
    (h : (mapKeys m).Nodup) : (mapKeys (mapInsert m k v)).Nodup := by
  rw [mapKeys_insert]
  by_cases ha : (m.any fun p => p.1 == k) = true
  · simpa [ha] using h
  · rw [if_neg ha, List.nodup_append]
    refine ⟨h, List.nodup_singleton k, ?_⟩
    intro x hx
    simp only [List.mem_singleton]
    intro hk
    subst hk
    simp only [mapKeys, List.mem_map] at hx
    obtain ⟨p, hp, hpk⟩ := hx
    exact ha (by
      rw [List.any_eq_true]
      exact ⟨p, hp, by simp [hpk]⟩)

/-- `entMap` builds the Go map `map[string]Entity` keyed by entity name. -/
def entMap (es : List Entity) : List (String × Entity) :=
  es.foldl (fun m e => mapInsert m e.name e) []

theorem entMap_keys_nodup (es : List Entity) : (mapKeys (entMap es)).Nodup := by
  suffices h : ∀ m : List (String × Entity), (mapKeys m).Nodup →
      (mapKeys (es.foldl (fun m e => mapInsert m e.name e) m)).Nodup by
    exact h [] (by simp [mapKeys])
  induction es with
  | nil => intro m hm; simpa using hm
  | cons e es ih =>
    intro m hm
    exact ih _ (mapKeys_nodup_insert m e.name e hm)

/-- Lookup of a member of a map with unique keys. -/
theorem mapLookup_of_mem {α : Type} (m : List (String × α)) (k : String) (v : α)
    (hn : (mapKeys m).Nodup) (hm : (k, v) ∈ m) : mapLookup m k = some v := by
  induction m with
  | nil => cases hm
  | cons p m ih =>
    have hn2 := mapKeys_nodup_cons hn
    rcases List.mem_cons.mp hm with h | h
    · subst h
      simp [mapLookup, List.find?]
    · have hk : p.1 ≠ k := by
        intro he
        exact hn2.1 (he ▸ mem_mapKeys_of_mem h)
      have hbeq : (p.1 == k) = false := by simpa using hk
      simp only [mapLookup, List.find?, hbeq]
      exact ih hn2.2 h

/-- An absent key has no entry. -/
theorem not_mem_of_mapLookup_none {α : Type} (m : List (String × α)) (k : String)
    (h : mapLookup m k = none) : ∀ v, (k, v) ∉ m := by
  intro v hv
  induction m with
  | nil => cases hv
  | cons p m ih =>
    rcases List.mem_cons.mp hv with he | he
    · subst he
      simp [mapLookup, List.find?] at h
    · apply ih _ he
      simp only [mapLookup, List.find?] at h ⊢
      cases hb : (p.1 == k) with
      | true => rw [hb] at h; simp at h
      | false => rw [hb] at h; exact h

/-- Members of a map with a given lookup value. -/
theorem mem_of_mapLookup_some {α : Type} (m : List (String × α)) (k : String) (v : α)
    (h : mapLookup m k = some v) : (k, v) ∈ m := by
  induction m with
  | nil => simp [mapLookup] at h
  | cons p m ih =>
    simp only [mapLookup, List.find?] at h
    cases hb : (p.1 == k) with
    | true =>
      rw [hb] at h
      have hp1 : p.1 = k := eq_of_beq hb
      have hp2 : p.2 = v := by
        cases p
        simpa using h
      have : p = (k, v) := by
        cases p
        simp only at hp1 hp2
        rw [hp1, hp2]
      exact this ▸ List.mem_cons_self p m
    | false =>
      rw [hb] at h
      exact List.mem_cons_of_mem p (ih h)

/-- With unique keys, filtering a map by one present key leaves exactly that
entry. -/
theorem filter_key_of_mem {α : Type} (m : List (String × α)) (k : String) (v : α)
    (hn : (mapKeys m).Nodup) (hm : (k, v) ∈ m) :
    m.filter (fun p => p.1 == k) = [(k, v)] := by
  induction m with
  | nil => cases hm
  | cons p m ih =>
    have hn2 := mapKeys_nodup_cons hn
    rcases List.mem_cons.mp hm with h | h
    · subst h
      have hrest : m.filter (fun p => p.1 == k) = [] := by
        rw [List.filter_eq_nil_iff]
        intro q hq hqk
        have h1 : q.1 ∈ mapKeys m := mem_mapKeys_of_mem hq
        rw [eq_of_beq hqk] at h1
        exact hn2.1 h1
      simp [List.filter_cons, hrest]
    · have hk : p.1 ≠ k := by
        intro he
        exact hn2.1 (he ▸ mem_mapKeys_of_mem h)
      have hbeq : (p.1 == k) = false := by simpa using hk
      simp only [List.filter_cons, hbeq, Bool.false_eq_true, if_false]
      exact ih hn2.2 h

/-- Filtering a map by an absent key leaves nothing. -/
theorem filter_key_of_none {α : Type} (m : List (String × α)) (k : String)
    (h : mapLookup m k = none) :
    m.filter (fun p => p.1 == k) = [] := by
  rw [List.filter_eq_nil_iff]
  intro q hq hqk
  refine not_mem_of_mapLookup_none m k h q.2 ?_
  have : q = (k, q.2) := by
    cases q
    simp only at hqk ⊢
    simp [eq_of_beq hqk]
  exact this ▸ hq

/-! The comparator itself. -/

/-- DiffType mirrors `manifest.DifferenceType`. -/
inductive DiffType where
  | missingInA
  | missingInB
  | checksumMismatch
  | typeMismatch
deriving DecidableEq, Repr

/-- EntityDifference mirrors `manifest.EntityDifference` (the `Type` field
is called `dtype` here). -/
structure EntityDifference where
  name : String
  dtype : DiffType
  expected : Option Entity
  actual : Option Entity
deriving DecidableEq, Repr

/-- Per-entry differences of the first loop of `CompareManifests`
(missing-in-B, then type mismatch shadowing checksum mismatch). -/
def diffA (mb : List (String × Entity)) (p : String × Entity) : List EntityDifference :=
  match mapLookup mb p.1 with
  | none => [⟨p.1, .missingInB, some p.2, none⟩]
  | some eb =>
    if p.2.isDir ≠ eb.isDir then [⟨p.1, .typeMismatch, some p.2, some eb⟩]
    else if p.2.checksum ≠ eb.checksum then [⟨p.1, .checksumMismatch, some p.2, some eb⟩]
    else []

/-- Per-entry differences of the second loop (entities of B absent from A). -/
def diffB (ma : List (String × Entity)) (p : String × Entity) : List EntityDifference :=
  match mapLookup ma p.1 with
  | none => [⟨p.1, .missingInA, none, some p.2⟩]
  | some _ => []

/-- `manifest.CompareManifests` on two non-nil manifests: build both maps,
collect the differences of both loops, report `identical` as emptiness of
the list.  (The nil-pointer branch returns an error and is outside this
model.) -/
def compareManifests (a b : Manifest) : Bool × List EntityDifference :=
  let ma := entMap a.entities
  let mb := entMap b.entities
  let diffs := ma.flatMap (diffA mb) ++ mb.flatMap (diffB ma)
  (diffs.isEmpty, diffs)

theorem diffA_name (mb : List (String × Entity)) (p : String × Entity) :
    ∀ d ∈ diffA mb p, d.name = p.1 := by
  intro d hd
  unfold diffA at hd
  split at hd
  · simp only [List.mem_singleton] at hd
    simp [hd]
  · split at hd
    · simp only [List.mem_singleton] at hd
      simp [hd]
    · split at hd
      · simp only [List.mem_singleton] at hd
        simp [hd]
      · cases hd

theorem diffB_name (ma : List (String × Entity)) (p : String × Entity) :
    ∀ d ∈ diffB ma p, d.name = p.1 := by
  intro d hd
  unfold diffB at hd
  split at hd
  · simp only [List.mem_singleton] at hd
    simp [hd]
  · cases hd

/-- Filtering the flat-mapped differences by a name keeps exactly the
blocks of the entries with that key. -/
theorem filter_name_flatMap (m : List (String × Entity))
    (f : String × Entity → List EntityDifference)
    (hf : ∀ p, ∀ d ∈ f p, d.name = p.1) (n : String) :
    (m.flatMap f).filter (fun d => d.name == n)
      = (m.filter (fun p => p.1 == n)).flatMap f := by
  induction m with
  | nil => rfl
  | cons p m ih =>
    rw [List.flatMap_cons, List.filter_append, List.filter_cons, ih]
    by_cases hpk : (p.1 == n) = true
    · rw [if_pos hpk, List.flatMap_cons]
      congr 1
      rw [List.filter_eq_self]
      intro d hd
      simp [hf p d hd, eq_of_beq hpk]
    · rw [if_neg hpk]
      have : (f p).filter (fun d => d.name == n) = [] := by
        rw [List.filter_eq_nil_iff]
        intro d hd
        rw [hf p d hd]
        simpa using hpk
      rw [this, List.nil_append]

/-- C6: `compare` returns `identical = true` exactly when the difference
list is empty; a name present only in A yields exactly one difference for
that name, a `MissingInB`; a name present only in B yields exactly one
`MissingInA`; a name present in both with differing `isDir` yields exactly
one `TypeMismatch` (and in particular no `ChecksumMismatch`) for that name;
a name present in both with equal `isDir` and differing checksum yields
exactly one `ChecksumMismatch`; and `compare(a, a)` is identical.
Presence is membership in the Go map built from the entity list
(`mapLookup (entMap ...)`), per-name results are stated as the filter of
the difference list by that name. -/
theorem compareManifests_spec (a b : Manifest) :
    ((compareManifests a b).1 = true ↔ (compareManifests a b).2 = [])
      ∧ (∀ n ea, mapLookup (entMap a.entities) n = some ea →
          mapLookup (entMap b.entities) n = none →
          ((compareManifests a b).2.filter (fun d => d.name == n))
            = [⟨n, .missingInB, some ea, none⟩])
      ∧ (∀ n eb, mapLookup (entMap b.entities) n = some eb →
          mapLookup (entMap a.entities) n = none →
          ((compareManifests a b).2.filter (fun d => d.name == n))
            = [⟨n, .missingInA, none, some eb⟩])
      ∧ (∀ n ea eb, mapLookup (entMap a.entities) n = some ea →
          mapLookup (entMap b.entities) n = some eb → ea.isDir ≠ eb.isDir →
          ((compareManifests a b).2.filter (fun d => d.name == n))
            = [⟨n, .typeMismatch, some ea, some eb⟩])
      ∧ (∀ n ea eb, mapLookup (entMap a.entities) n = some ea →
          mapLookup (entMap b.entities) n = some eb → ea.isDir = eb.isDir →
          ea.checksum ≠ eb.checksum →
          ((compareManifests a b).2.filter (fun d => d.name == n))
            = [⟨n, .checksumMismatch, some ea, some eb⟩])
      ∧ compareManifests a a = (true, []) := by
  have hka := entMap_keys_nodup a.entities
  have hkb := entMap_keys_nodup b.entities
  refine ⟨?_, ?_, ?_, ?_, ?_, ?_⟩
  · simp [compareManifests, List.isEmpty_iff]
  · intro n ea hma hmb
    have hmem := mem_of_mapLookup_some _ _ _ hma
    simp only [compareManifests, List.filter_append]
    rw [filter_name_flatMap _ _ (diffA_name _) n,
        filter_name_flatMap _ _ (diffB_name _) n,
        filter_key_of_mem _ _ _ hka hmem, filter_key_of_none _ _ hmb]
    simp [diffA, hmb]
  · intro n eb hmb hma
    have hmem := mem_of_mapLookup_some _ _ _ hmb
    simp only [compareManifests, List.filter_append]
    rw [filter_name_flatMap _ _ (diffA_name _) n,
        filter_name_flatMap _ _ (diffB_name _) n,
        filter_key_of_none _ _ hma, filter_key_of_mem _ _ _ hkb hmem]
    simp [diffB, hma]
  · intro n ea eb hma hmb hdir
    have hmema := mem_of_mapLookup_some _ _ _ hma
    have hmemb := mem_of_mapLookup_some _ _ _ hmb
    simp only [compareManifests, List.filter_append]
    rw [filter_name_flatMap _ _ (diffA_name _) n,
        filter_name_flatMap _ _ (diffB_name _) n,
        filter_key_of_mem _ _ _ hka hmema, filter_key_of_mem _ _ _ hkb hmemb]
    simp [diffA, diffB, hmb, hma, hdir]
  · intro n ea eb hma hmb hdir hsum
    have hmema := mem_of_mapLookup_some _ _ _ hma
    have hmemb := mem_of_mapLookup_some _ _ _ hmb
    simp only [compareManifests, List.filter_append]
    rw [filter_name_flatMap _ _ (diffA_name _) n,
        filter_name_flatMap _ _ (diffB_name _) n,
        filter_key_of_mem _ _ _ hka hmema, filter_key_of_mem _ _ _ hkb hmemb]
    simp [diffA, diffB, hmb, hma, hdir, hsum]
  · have hA : (entMap a.entities).flatMap (diffA (entMap a.entities)) = [] := by
      rw [List.flatMap_eq_nil_iff]
      intro p hp
      have : mapLookup (entMap a.entities) p.1 = some p.2 := by
        refine mapLookup_of_mem _ _ _ hka ?_
        cases p
        exact hp
      simp [diffA, this]
    have hB : (entMap a.entities).flatMap (diffB (entMap a.entities)) = [] := by
      rw [List.flatMap_eq_nil_iff]
      intro p hp
      have : mapLookup (entMap a.entities) p.1 = some p.2 := by
        refine mapLookup_of_mem _ _ _ hka ?_
        cases p
        exact hp
      simp [diffB, this]
    simp [compareManifests, hA, hB]

/-- C6, witness: a concrete comparison exercising the missing-in-B case
through `compareManifests_spec`. -/
theorem compareManifests_spec_witness :
    ((compareManifests ⟨[⟨"x", "1", false⟩], "", none⟩ ⟨[], "", none⟩).2.filter
        (fun d => d.name == "x"))
      = [⟨"x", .missingInB, some ⟨"x", "1", false⟩, none⟩] := by
  exact (compareManifests_spec ⟨[⟨"x", "1", false⟩], "", none⟩ ⟨[], "", none⟩).2.1
    "x" ⟨"x", "1", false⟩ (by decide) (by decide)

/-! Hex encoding and decoding (`encoding/hex` as used by `manifest.go`). -/

/-- Value of one hex digit (upper or lower case), `none` for a non-hex
character, as in Go `hex.fromHexChar`. -/
def hexVal (c : Char) : Option Nat :=
  if 48 ≤ c.toNat ∧ c.toNat ≤ 57 then some (c.toNat - 48)
  else if 97 ≤ c.toNat ∧ c.toNat ≤ 102 then some (c.toNat - 87)
  else if 65 ≤ c.toNat ∧ c.toNat ≤ 70 then some (c.toNat - 55)
  else none

/-- Decoded prefix of Go `hex.DecodeString`: full hex pairs are decoded
until an invalid character or an odd trailing byte; the bytes decoded so
far are returned together with an error, and every caller in `manifest.go`
discards the error with `_`. -/
def hexDecodeLoose : List Char → List Char
  | c1 :: c2 :: rest =>
    (match hexVal c1, hexVal c2 with
      | some a, some b => Char.ofNat (16 * a + b) :: hexDecodeLoose rest
      | _, _ => [])
  | _ => []

/-- Go `hex.DecodeString` with the error discarded. -/
def hexDecode (s : String) : String := ⟨hexDecodeLoose s.data⟩

/-- Go `hex.EncodeToString` (lowercase) on a byte string. -/
def hexEncode (s : String) : String :=
  ⟨s.data.flatMap (fun c => [hexDigitLower (c.toNat / 16 % 16), hexDigitLower (c.toNat % 16)])⟩

/-! Certificates and the two-step audit (`pkg/certification/certs.go`,
`pkg/generator/manifest_processor.go`, `pkg/verifier/manifest_auditor.go`).
ed25519 is abstracted by `SigScheme`. -/

/-- SigScheme abstracts ed25519: deterministic signing, public-key
derivation and verification over byte strings. -/
structure SigScheme where
  sign : String → String → String
  pubOf : String → String
  verify : String → String → String → Bool

/-- SimpleCertificate mirrors `certification.SimpleCertificate`: decoded
subject public key, issuer signature, issuer public key and the issuer
reference string. -/
structure SimpleCertificate where
  pubKey : String
  sig : String
  issuerPubKey : String
  issuerRef : String
deriving DecidableEq, Repr

/-- `dataToSign` of `certs.go`: the subject public key concatenated with
the issuer reference bytes. -/
def certDataToSign (c : SimpleCertificate) : String := c.pubKey ++ c.issuerRef

/-- `(c *SimpleCertificate) Verify`: ed25519-verify the issuer signature
over `dataToSign` against the issuer public key.  Of the Go guards only the
empty-reference one is live here: hex-decoded byte slices are never nil,
so the nil-slice guards cannot fire on the audit path. -/
def certVerify (S : SigScheme) (c : SimpleCertificate) : Bool :=
  if c.issuerRef = "" then false
  else S.verify c.issuerPubKey (certDataToSign c) c.sig

/-- `Manifest.GetAuditorCertificate`: nil without an auditor block,
otherwise the hex-decoded certificate with every decode error silently
discarded (`_`), so invalid hex yields empty or truncated byte fields. -/
def getAuditorCertificate (m : Manifest) : Option SimpleCertificate :=
  match m.auditor with
  | none => none
  | some a => some ⟨hexDecode a.certificate.publicKey, hexDecode a.certificate.signature,
      hexDecode a.certificate.issuerPublicKey, a.certificate.issuerRef⟩

/-- `Manifest.GetAuditorManifestSignature`: nil without an auditor block,
otherwise the hex-decoded signature, decode error discarded. -/
def getAuditorManifestSignature (m : Manifest) : Option String :=
  match m.auditor with
  | none => none
  | some a => some (hexDecode a.manifestSignature)

/-- AuditError: the error kinds issued by `SimpleManifestAuditor.Verify`
(all of them signature or certificate verification failures). -/
inductive AuditError where
  | certMissing
  | certInvalid
  | sigInvalid
deriving DecidableEq, Repr

/-- AuditResult mirrors `verifier.AuditResult`. -/
structure AuditResult where
  isAudited : Bool
  error : Option AuditError
deriving DecidableEq, Repr

/-- `SimpleManifestAuditor.Verify`: not audited without an auditor block;
otherwise step 1 verifies the certificate (issuer signature over
`publicKey ++ issuerReference`), step 2 verifies the manifest signature
over `DataWithoutAuditor` of the given manifest against the certificate's
public key.  (The `DataWithoutAuditor` marshalling-error branch is dead
code; the nil-certificate branch is unreachable because the getter never
returns nil when an auditor block is present.) -/
def auditorVerify (S : SigScheme) (m : Manifest) : AuditResult :=
  match m.auditor with
  | none => ⟨false, none⟩
  | some a =>
    match getAuditorCertificate m with
    | none => ⟨true, some .certMissing⟩
    | some c =>
      if ¬ certVerify S c then ⟨true, some .certInvalid⟩
      else if ¬ S.verify c.pubKey (dataWithoutAuditor m) (hexDecode a.manifestSignature) then
        ⟨true, some .sigInvalid⟩
      else ⟨true, none⟩

/-! The processors (`pkg/generator/manifest_processor.go`). -/

/-- RootSigner models the caller-supplied `Signer` as a raw ed25519 key
with a reference string (`signing.NewEd25519Signer`). -/
structure RootSigner where
  priv : String
  ref : String

/-- Certificate issuance in `NewSignedProcessor` via
`signing.IssueCertificate` (`certs.go`): the root signer signs the
ephemeral public key concatenated with its reference. -/
def issueCertificate (S : SigScheme) (rs : RootSigner) (ephPriv : String) : SimpleCertificate :=
  ⟨S.pubOf ephPriv,
    S.sign rs.priv (S.pubOf ephPriv ++ rs.ref),
    S.pubOf rs.priv,
    rs.ref⟩

/-- `Manifest.SetAuditedBy`: a nil certificate clears the auditor block;
otherwise the block is attached with hex-encoded binary fields and the
wall-clock timestamp `now`. -/
def setAuditedBy (m : Manifest) (cert : Option SimpleCertificate) (msig : String)
    (now : String) : Manifest :=
  match cert with
  | none => { m with auditor := none }
  | some c =>
    { m with auditor := some ⟨now,
        ⟨hexEncode c.pubKey, hexEncode c.sig, hexEncode c.issuerPubKey, c.issuerRef⟩,
        hexEncode msig⟩ }

/-- `SignedProcessor.Process`: marshal the manifest without its auditor
block, sign those bytes with the ephemeral private key, attach the auditor
block, then save (which recomputes the HMAC and writes). -/
def signedProcess (S : SigScheme) (hf : HMACFn) (env : Option String)
    (cert : SimpleCertificate) (ephPriv : String) (now : String) (m : Manifest) : Manifest :=
  let manifestData := dataWithoutAuditor m
  let manifestSignature := S.sign ephPriv manifestData
  saveManifest hf env (setAuditedBy m (some cert) manifestSignature now)

/-- `UnsignedProcessor.Process`: clear the auditor block and save. -/
def unsignedProcess (hf : HMACFn) (env : Option String) (m : Manifest) : Manifest :=
  saveManifest hf env (setAuditedBy m none "" "")

/-! C2.  The signed round trip.  The processor signs
`DataWithoutAuditor()` of the manifest freshly built by the scanner, whose
`hmac` field is still empty (`New` leaves it empty; `Save` only computes it
afterwards).  The auditor recomputes `DataWithoutAuditor()` of the loaded
manifest, whose `hmac` field carries the stored value, so the verified
bytes differ from the signed bytes and step 2 of the audit fails. -/

/-- Concrete signature scheme used to evaluate the pipeline: a signature
records the signer's public key and the exact message, and verification
checks both, so it is correct and binds the message (an idealization of
ed25519). -/
def toyScheme : SigScheme where
  sign k m := "sig[pub[" ++ k ++ "]|" ++ m ++ "]"
  pubOf k := "pub[" ++ k ++ "]"
  verify pk m s := s == "sig[" ++ pk ++ "|" ++ m ++ "]"

/-- Concrete HMAC stand-in used to evaluate the pipeline: it records key
and data, so it is injective like a real digest. -/
def toyHmac : HMACFn := fun k d => "hmac[" ++ k ++ "|" ++ d ++ "]"

/-- The manifest computed by the scanner for the failing input: a directory
holding the single file `a.txt` (checksum abbreviated). -/
def c2computed : Manifest := manifestNew [⟨"a.txt", "ca", false⟩]

/-- The certificate issued at `NewSignedProcessor` time for the failing
input. -/
def c2cert : SimpleCertificate := issueCertificate toyScheme ⟨"rootk", "github:alice"⟩ "ephk"

/-- The manifest as sealed and saved by the signed processor for the
failing input. -/
def c2saved : Manifest := signedProcess toyScheme toyHmac none c2cert "ephk" "t0" c2computed

set_option maxRecDepth 4000 in
/-- C2: evaluating the embedded pipeline at the failing input.  Loading the
saved file succeeds and the certificate verifies against the carried issuer
public key (steps the claim gets right), but the manifest-signature
verification of step 2 fails — `auditorVerify` reports `sigInvalid`
instead of a clean audit — because the signed bytes carry `"hmac":""`
while the verified bytes carry the stored HMAC. -/
theorem signedRoundTrip_signature_rejected :
    loadManifest toyHmac none (.stored c2saved) = .ok c2saved
      ∧ (getAuditorCertificate c2saved).map (certVerify toyScheme) = some true
      ∧ auditorVerify toyScheme c2saved = ⟨true, some .sigInvalid⟩
      ∧ auditorVerify toyScheme c2saved ≠ ⟨true, none⟩ := by
  refine ⟨by decide, by decide, by decide, by decide⟩

/-! C7.  The certificate object as serialized by the snapshot's
`pkg/manifest/manifest.go`. -/

/-- CertificateDataSrc embeds the certificate struct at lines 43-48 of the
snapshot `pkg/manifest/manifest.go`: wire fields `name`, `publicKey`,
`signature`, `issuerPublicKey` — and no issuer reference field. -/
structure CertificateDataSrc where
  certName : String
  publicKey : String
  signature : String
  issuerPublicKey : String
deriving DecidableEq, Repr

/-- Compact JSON of `CertificateDataSrc`, field order as declared. -/
def serializeCertificateDataSrc (c : CertificateDataSrc) : String :=
  "\x7b\"name\":" ++ goQuote c.certName ++ ",\"publicKey\":" ++ goQuote c.publicKey
    ++ ",\"signature\":" ++ goQuote c.signature
    ++ ",\"issuerPublicKey\":" ++ goQuote c.issuerPublicKey ++ "\x7d"

/-- The certificate construction in the snapshot's `SetAuditedBy` (lines
80-88): carry the name, hex-encode the three binary fields. -/
def certDataOfSrc (name pubKey sig issuerPubKey : String) : CertificateDataSrc :=
  ⟨name, hexEncode pubKey, hexEncode sig, hexEncode issuerPubKey⟩

/-- Substring test on byte strings. -/
def strContains (s sub : String) : Bool :=
  (List.range (s.data.length + 1)).any (fun i => sub.data.isPrefixOf (s.data.drop i))

/-- C7: the snapshot code serializes the auditor certificate with the field
names `name`, `publicKey`, `signature`, `issuerPublicKey`: at a concrete
certificate the emitted JSON carries a `name` field and no
`issuerReference` field, contradicting the claimed field set (the
lowercase-hex part of the claim does hold, as the `5a` digits show). -/
theorem certificateDataSrc_fields :
    serializeCertificateDataSrc (certDataOfSrc "github:alice" "AZ" "BZ" "CZ")
        = "\x7b\"name\":\"github:alice\",\"publicKey\":\"415a\",\"signature\":\"425a\",\"issuerPublicKey\":\"435a\"\x7d"
      ∧ strContains
          (serializeCertificateDataSrc (certDataOfSrc "github:alice" "AZ" "BZ" "CZ"))
          "\"issuerReference\"" = false
      ∧ strContains
          (serializeCertificateDataSrc (certDataOfSrc "github:alice" "AZ" "BZ" "CZ"))
          "\"name\"" = true := by
  refine ⟨by decide, by decide, by decide⟩

/-! C10.  Hex-decode failures in the auditor accessors are silent. -/

/-- C10: the auditor accessors never fail — for any manifest with an
auditor block they return exactly the loosely hex-decoded fields — and the
load outcome is independent of the auditor block, so malformed certificate
hex can never surface as a load-time parse error; it surfaces only in the
audit step, whose report on such a manifest is a certificate/signature
verification error with `IsAudited = true`.  The final conjuncts evaluate a
malformed block: non-hex `publicKey` `"zz"` decodes to empty bytes,
`"61zz"` truncates to `"a"`, and the audit of a manifest carrying them
reports `certInvalid` rather than failing to parse. -/
theorem auditor_hex_errors_silent (hf : HMACFn) (env : Option String)
    (m : Manifest) (a : AuditorData) (es : List Entity) (hm : String)
    (haud : m.auditor = some a) :
    (getAuditorCertificate m
        = some ⟨hexDecode a.certificate.publicKey, hexDecode a.certificate.signature,
            hexDecode a.certificate.issuerPublicKey, a.certificate.issuerRef⟩
      ∧ getAuditorManifestSignature m = some (hexDecode a.manifestSignature))
      ∧ (∀ a' : Option AuditorData,
          loadManifest hf env (.stored ⟨es, hm, some a⟩) = .invalidHmac
            ↔ loadManifest hf env (.stored ⟨es, hm, a'⟩) = .invalidHmac)
      ∧ (hm = manifestHMAC hf env (sortEnts es) →
          loadManifest hf env (.stored ⟨es, hm, some a⟩) = .ok ⟨sortEnts es, hm, some a⟩)
      ∧ hexDecode "zz" = ""
      ∧ hexDecode "61zz" = "a"
      ∧ auditorVerify toyScheme ⟨es, hm, some ⟨"t", ⟨"zz", "61zz", "zz", "r"⟩, "zz"⟩⟩
          = ⟨true, some .certInvalid⟩ := by
  refine ⟨⟨?_, ?_⟩, ?_, ?_, by decide, by decide, ?_⟩
  · simp [getAuditorCertificate, haud]
  · simp [getAuditorManifestSignature, haud]
  · intro a'
    constructor
    · intro h
      simp only [loadManifest] at h ⊢
      by_cases hh : hm = manifestHMAC hf env (sortEnts es)
      · simp [hh] at h
      · simp [hh]
    · intro h
      simp only [loadManifest] at h ⊢
      by_cases hh : hm = manifestHMAC hf env (sortEnts es)
      · simp [hh] at h
      · simp [hh]
  · intro hh
    simp [loadManifest, hh]
  · have hc : certVerify toyScheme ⟨hexDecode "zz", hexDecode "61zz", hexDecode "zz", "r"⟩
        = false := by decide
    simp [auditorVerify, getAuditorCertificate, hc]

/-- C10, witness: a concrete manifest with a malformed-hex auditor block is
accepted by the accessors (truncated bytes) and rejected only by the audit
step. -/
theorem auditor_hex_errors_silent_witness :
    getAuditorCertificate ⟨[], "h", some ⟨"t", ⟨"zz", "61zz", "zz", "r"⟩, "zz"⟩⟩
        = some ⟨"", "a", "", "r"⟩
      ∧ auditorVerify toyScheme ⟨[], "h", some ⟨"t", ⟨"zz", "61zz", "zz", "r"⟩, "zz"⟩⟩
        = ⟨true, some .certInvalid⟩ := by
  have h := auditor_hex_errors_silent toyHmac none
    ⟨[], "h", some ⟨"t", ⟨"zz", "61zz", "zz", "r"⟩, "zz"⟩⟩
    ⟨"t", ⟨"zz", "61zz", "zz", "r"⟩, "zz"⟩ [] "h" rfl
  exact ⟨h.1.1.trans (by decide), h.2.2.2.2.2⟩

/-! Issuer trust resolution (`pkg/issuer/verifier.go` and the URL-based
sub-verifier of `src/unnamed/part_012`). -/

theorem mapLookup_mapInsert_self {α : Type} (m : List (String × α)) (k : String) (v : α) :
    mapLookup (mapInsert m k v) k = some v := by
  induction m with
  | nil => simp [mapInsert, mapLookup, List.find?]
  | cons p m ih =>
    by_cases hp : (p.1 == k) = true
    · have hany : ((p :: m).any fun q => q.1 == k) = true := by
        simp [List.any_cons, hp]
      simp only [mapInsert, hany, if_true, List.map_cons, hp, if_pos hp]
      simp [mapLookup, List.find?]
    · have hany : ((p :: m).any fun q => q.1 == k) = (m.any fun q => q.1 == k) := by
        simp [List.any_cons, hp]
      by_cases hm : (m.any fun q => q.1 == k) = true
      · simp only [mapInsert, hany, hm, if_true, List.map_cons, if_neg hp]
        simp only [mapLookup, List.find?, hp]
        have := ih
        simp only [mapInsert, hm, if_true] at this
        exact this
      · simp only [mapInsert, hany, hm, Bool.false_eq_true, if_false, List.cons_append]
        simp only [mapLookup, List.find?, hp]
        have := ih
        simp only [mapInsert, hm, Bool.false_eq_true, if_false] at this
        exact this

theorem mapLookup_mapInsert_ne {α : Type} (m : List (String × α)) (k' k : String) (v : α)
    (hne : k' ≠ k) : mapLookup (mapInsert m k' v) k = mapLookup m k := by
  induction m with
  | nil =>
    have : (k' == k) = false := by simpa using hne
    simp [mapInsert, mapLookup, List.find?, this]
  | cons p m ih =>
    by_cases hp : (p.1 == k') = true
    · have hany : ((p :: m).any fun q => q.1 == k') = true := by
        simp [List.any_cons, hp]
      simp only [mapInsert, hany, if_true, List.map_cons, if_pos hp]
      have hk'f : (k' == k) = false := by simpa using hne
      have hpk : (p.1 == k) = false := by
        have := eq_of_beq hp
        simpa [this] using hne
      simp only [mapLookup, List.find?, hk'f, hpk]
      by_cases hm : (m.any fun q => q.1 == k') = true
      · have := ih
        simp only [mapInsert, hm, if_true] at this
        simpa [mapLookup] using this
      · have hmapid : m.map (fun q => if (q.1 == k') = true then (k', v) else q) = m := by
          conv_rhs => rw [← List.map_id m]
          apply List.map_congr_left
          intro q hq
          have : (q.1 == k') = false := by
            by_contra hc
            simp only [Bool.not_eq_false] at hc
            exact absurd (List.any_eq_true.mpr ⟨q, hq, hc⟩) hm
          simp [this]
        rw [hmapid]
    · have hany : ((p :: m).any fun q => q.1 == k') = (m.any fun q => q.1 == k') := by
        simp [List.any_cons, hp]
      by_cases hm : (m.any fun q => q.1 == k') = true
      · simp only [mapInsert, hany, hm, if_true, List.map_cons, if_neg hp]
        simp only [mapLookup, List.find?]
        cases hpk : (p.1 == k) with
        | true => rfl
        | false =>
          have := ih
          simp only [mapInsert, hm, if_true] at this
          exact this
      · simp only [mapInsert, hany, hm, Bool.false_eq_true, if_false, List.cons_append]
        simp only [mapLookup, List.find?]
        cases hpk : (p.1 == k) with
        | true => rfl
        | false =>
          have := ih
          simp only [mapInsert, hm, Bool.false_eq_true, if_false] at this
          exact this

/-- TrustErr: the error causes carried inside a per-reference status. -/
inductive TrustErr where
  | invalidReference
  | fetchFailed
  | keyMissing
deriving DecidableEq, Repr

/-- Issuer mirrors `issuer.Issuer`: the reference string and the issuer
public key collected from a verified certificate. -/
structure Issuer where
  ref : String
  publicKey : String
deriving DecidableEq, Repr

/-- TrustStatus mirrors `issuer.Status`. -/
structure TrustStatus where
  issuer : Issuer
  supported : Bool
  error : Option TrustErr
deriving DecidableEq, Repr

/-- SubVerifier models `URLBasedVerifier`: the scheme prefix plus the
fetch-and-parse behind the URL template.  The HTTP client, the `file://`
branch and the `authorized_keys` parsing of `fetchPublicKeys` /
`parsePublicKeys` are abstracted into `fetch`, keyed by the identifier that
is substituted into the template; the returned list holds the ed25519 keys
that parsed (non-ed25519 and malformed lines are already dropped). -/
structure SubVerifier where
  scheme : String
  fetch : String → Except Unit (List String)

/-- `URLBasedVerifier.Supports`: the reference starts with the scheme. -/
def SubVerifier.supports (v : SubVerifier) (ref : String) : Bool :=
  v.scheme.data.isPrefixOf ref.data

/-- `strings.TrimPrefix` inside `fetchPublicKeys`. -/
def trimScheme (v : SubVerifier) (ref : String) : String :=
  if v.scheme.data.isPrefixOf ref.data then ⟨ref.data.drop v.scheme.data.length⟩ else ref

/-- `fetchPublicKeys`: reject an empty identifier, then fetch. -/
def fetchKeys (v : SubVerifier) (ref : String) : Except TrustErr (List String) :=
  if trimScheme v ref = "" then .error .invalidReference
  else
    match v.fetch (trimScheme v ref) with
    | .error _ => .error .fetchFailed
    | .ok ks => .ok ks

/-- The status computed for one reference group by `URLBasedVerifier.Verify`:
fetch failure becomes an error status, otherwise the group is trusted
exactly when every seen key is in the fetched set (the Go loop breaks at
the first missing key; `List.all` is that loop). -/
def statusFor (v : SubVerifier) (r : String) (group : List Issuer) : TrustStatus :=
  match fetchKeys v r with
  | .error e => ⟨group.headD ⟨r, ""⟩, true, some e⟩
  | .ok ks =>
    if group.all (fun j => ks.contains j.publicKey) then ⟨group.headD ⟨r, ""⟩, true, none⟩
    else ⟨group.headD ⟨r, ""⟩, true, some .keyMissing⟩

/-- The `issuersByRef` grouping loop of `URLBasedVerifier.Verify`:
supported issuers are appended to their reference's group. -/
def issuersByRef (v : SubVerifier) (issuers : List Issuer) : List (String × List Issuer) :=
  issuers.foldl
    (fun m i =>
      if v.supports i.ref then mapInsert m i.ref ((mapLookup m i.ref).getD [] ++ [i]) else m)
    []

/-- `URLBasedVerifier.Verify`: classify every supported reference group,
then add an unsupported status for every issuer whose reference got no
entry (first such issuer wins, as in the Go `if !ok` guard). -/
def urlVerify (v : SubVerifier) (issuers : List Issuer) : List (String × TrustStatus) :=
  issuers.foldl
    (fun res i =>
      if (mapLookup res i.ref).isSome then res else res ++ [(i.ref, ⟨i, false, none⟩)])
    ((issuersByRef v issuers).map (fun g => (g.1, statusFor v g.1 g.2)))

/-- `MultiSourceVerifier.Verify`: per issuer, preset the unsupported
status, then delegate to the first sub-verifier whose scheme matches and
take that verifier's status for the reference.  (The inner lookup is
`some` for every supported issuer; the `none` fallback is unreachable.) -/
def multiVerify (vs : List SubVerifier) (issuers : List Issuer) : List (String × TrustStatus) :=
  issuers.foldl
    (fun res i =>
      let res1 := mapInsert res i.ref ⟨i, false, none⟩
      match vs.find? (fun v => v.supports i.ref) with
      | none => res1
      | some v =>
        match mapLookup (urlVerify v [i]) i.ref with
        | some st => mapInsert res1 i.ref st
        | none => res1)
    []

/-- A supported singleton issuer list receives exactly its reference's
status from `URLBasedVerifier.Verify`. -/
theorem urlVerify_singleton (v : SubVerifier) (i : Issuer) (hs : v.supports i.ref = true) :
    urlVerify v [i] = [(i.ref, statusFor v i.ref [i])] := by
  have h1 : issuersByRef v [i] = [(i.ref, [i])] := by
    simp [issuersByRef, hs, mapInsert, mapLookup]
  simp [urlVerify, h1, mapLookup, List.find?]

/-- Status takeover of one loop step: a delegated status replaces the
preset unsupported entry (the `none` fallback is unreachable for supported
issuers). -/
def multiTake (res : List (String × TrustStatus)) (i : Issuer) :
    Option TrustStatus → List (String × TrustStatus)
  | some st => mapInsert (mapInsert res i.ref ⟨i, false, none⟩) i.ref st
  | none => mapInsert res i.ref ⟨i, false, none⟩

/-- Sub-verifier dispatch of one loop step. -/
def multiDispatch (res : List (String × TrustStatus)) (i : Issuer) :
    Option SubVerifier → List (String × TrustStatus)
  | none => mapInsert res i.ref ⟨i, false, none⟩
  | some v => multiTake res i (mapLookup (urlVerify v [i]) i.ref)

/-- One step of `MultiSourceVerifier.Verify`'s loop. -/
def multiStep (vs : List SubVerifier) (res : List (String × TrustStatus)) (i : Issuer) :
    List (String × TrustStatus) :=
  multiDispatch res i (vs.find? (fun v => v.supports i.ref))

theorem multiVerify_eq_foldl (vs : List SubVerifier) (issuers : List Issuer) :
    multiVerify vs issuers = issuers.foldl (multiStep vs) [] := by
  unfold multiVerify multiStep multiDispatch multiTake
  congr 1

/-- The loop leaves references it does not process untouched. -/
theorem multiStep_frame (vs : List SubVerifier) (l : List Issuer) (k : String) :
    ∀ res, (∀ j ∈ l, j.ref ≠ k) →
      mapLookup (l.foldl (multiStep vs) res) k = mapLookup res k := by
  induction l with
  | nil => intro res _; rfl
  | cons j t ih =>
    intro res hk
    rw [List.foldl_cons, ih _ (fun q hq => hk q (List.mem_cons_of_mem j hq))]
    have hjk : j.ref ≠ k := hk j (List.mem_cons_self j t)
    unfold multiStep
    cases vs.find? (fun v => v.supports j.ref) with
    | none =>
      rw [multiDispatch]
      exact mapLookup_mapInsert_ne _ _ _ _ hjk
    | some v =>
      rw [multiDispatch]
      cases mapLookup (urlVerify v [j]) j.ref with
      | none =>
        rw [multiTake]
        exact mapLookup_mapInsert_ne _ _ _ _ hjk
      | some st =>
        rw [multiTake, mapLookup_mapInsert_ne _ _ _ _ hjk, mapLookup_mapInsert_ne _ _ _ _ hjk]

/-- The per-issuer outcome of `MultiSourceVerifier.Verify` under distinct
references: the preset unsupported status when no sub-verifier matches,
else the first matching sub-verifier's status for a singleton query. -/
theorem multiVerify_lookup (vs : List SubVerifier) (issuers : List Issuer)
    (hnd : (issuers.map Issuer.ref).Nodup) (i : Issuer) (hi : i ∈ issuers) :
    mapLookup (multiVerify vs issuers) i.ref
      = match vs.find? (fun v => v.supports i.ref) with
        | none => some ⟨i, false, none⟩
        | some v => some (statusFor v i.ref [i]) := by
  rw [multiVerify_eq_foldl]
  suffices h : ∀ res, (issuers.map Issuer.ref).Nodup → i ∈ issuers →
      mapLookup (issuers.foldl (multiStep vs) res) i.ref
        = match vs.find? (fun v => v.supports i.ref) with
          | none => some ⟨i, false, none⟩
          | some v => some (statusFor v i.ref [i]) by
    exact h [] hnd hi
  clear hnd hi
  induction issuers with
  | nil =>
    intro res _ hi
    cases hi
  | cons j t ih =>
    intro res hnd hi
    rw [List.map_cons] at hnd
    rw [List.foldl_cons]
    rcases List.mem_cons.mp hi with he | he
    · subst he
      have hknot : ∀ q ∈ t, q.ref ≠ i.ref := by
        intro q hq he2
        exact (List.nodup_cons.mp hnd).1 (he2 ▸ List.mem_map_of_mem Issuer.ref hq)
      rw [multiStep_frame vs t i.ref _ hknot]
      unfold multiStep
      cases hf : vs.find? (fun v => v.supports i.ref) with
      | none =>
        rw [multiDispatch]
        exact mapLookup_mapInsert_self _ _ _
      | some v =>
        have hs : v.supports i.ref = true := by
          have := List.find?_some hf
          simpa using this
        rw [multiDispatch, urlVerify_singleton v i hs]
        have hone : mapLookup [(i.ref, statusFor v i.ref [i])] i.ref
            = some (statusFor v i.ref [i]) := by
          simp [mapLookup, List.find?]
        rw [hone, multiTake]
        exact mapLookup_mapInsert_self _ _ _
    · exact ih _ (List.nodup_cons.mp hnd).2 he

theorem issuersByRef_uniform_aux (v : SubVerifier) (r : String) (g : List Issuer)
    (hr : ∀ j ∈ g, j.ref = r) (hs : v.supports r = true) :
    ∀ acc, g.foldl
        (fun m i =>
          if v.supports i.ref then mapInsert m i.ref ((mapLookup m i.ref).getD [] ++ [i]) else m)
        [(r, acc)]
      = [(r, acc ++ g)] := by
  induction g with
  | nil => intro acc; simp
  | cons j t ih =>
    intro acc
    have hjr : j.ref = r := hr j (List.mem_cons_self j t)
    rw [List.foldl_cons]
    have hstep : (if v.supports j.ref then
          mapInsert [(r, acc)] j.ref ((mapLookup [(r, acc)] j.ref).getD [] ++ [j])
        else [(r, acc)]) = [(r, acc ++ [j])] := by
      rw [hjr, hs, if_pos rfl]
      have hlk : mapLookup [(r, acc)] r = some acc := by
        simp [mapLookup, List.find?]
      rw [hlk]
      simp [mapInsert]
    rw [hstep, ih (fun q hq => hr q (List.mem_cons_of_mem j hq)) (acc ++ [j])]
    simp

/-- A non-empty uniform group of supported issuers is grouped under its
reference. -/
theorem issuersByRef_uniform (v : SubVerifier) (r : String) (g : List Issuer)
    (hne : g ≠ []) (hr : ∀ j ∈ g, j.ref = r) (hs : v.supports r = true) :
    issuersByRef v g = [(r, g)] := by
  cases g with
  | nil => exact absurd rfl hne
  | cons j t =>
    have hjr : j.ref = r := hr j (List.mem_cons_self j t)
    unfold issuersByRef
    rw [List.foldl_cons]
    have hstep : (if v.supports j.ref then
          mapInsert [] j.ref ((mapLookup [] j.ref).getD [] ++ [j])
        else ([] : List (String × List Issuer))) = [(r, [j])] := by
      rw [hjr, hs, if_pos rfl]
      simp [mapInsert, mapLookup]
    rw [hstep, issuersByRef_uniform_aux v r t (fun q hq => hr q (List.mem_cons_of_mem j hq)) hs [j]]
    simp

theorem urlVerify_no_additions (res : List (String × TrustStatus)) (g : List Issuer)
    (h : ∀ j ∈ g, (mapLookup res j.ref).isSome = true) :
    g.foldl
        (fun res i =>
          if (mapLookup res i.ref).isSome then res else res ++ [(i.ref, ⟨i, false, none⟩)])
        res
      = res := by
  induction g with
  | nil => rfl
  | cons j t ih =>
    rw [List.foldl_cons, if_pos (h j (List.mem_cons_self j t))]
    exact ih (fun q hq => h q (List.mem_cons_of_mem j hq))

/-- `URLBasedVerifier.Verify` on a non-empty uniform supported group:
exactly one status, computed by `statusFor`. -/
theorem urlVerify_uniform (v : SubVerifier) (r : String) (g : List Issuer)
    (hne : g ≠ []) (hr : ∀ j ∈ g, j.ref = r) (hs : v.supports r = true) :
    urlVerify v g = [(r, statusFor v r g)] := by
  unfold urlVerify
  rw [issuersByRef_uniform v r g hne hr hs]
  rw [List.map_singleton]
  apply urlVerify_no_additions
  intro j hj
  rw [hr j hj]
  simp [mapLookup, List.find?]

/-- C4: for each reference of the collected issuer list (one entry per
unique reference, as produced by the auditor's issuer map), the resolver
delegates to the first sub-verifier whose scheme prefix matches and the
resulting status is: unsupported (no error) when no sub-verifier matches;
an error status when the fetch fails; no error when every seen public key
for the reference appears in the fetched set; an error status when the
fetch succeeds but a seen key is absent.  The last conjunct states the
group form of the key check inside `URLBasedVerifier.Verify`: a uniform
group is error-free exactly when all of its keys are in the fetched set. -/
theorem trustResolution_spec (vs : List SubVerifier) (issuers : List Issuer)
    (hnd : (issuers.map Issuer.ref).Nodup) (i : Issuer) (hi : i ∈ issuers) :
    (vs.find? (fun v => v.supports i.ref) = none →
        mapLookup (multiVerify vs issuers) i.ref = some ⟨i, false, none⟩)
      ∧ (∀ v, vs.find? (fun v => v.supports i.ref) = some v →
          (mapLookup (multiVerify vs issuers) i.ref = mapLookup (urlVerify v [i]) i.ref)
            ∧ (∀ e, fetchKeys v i.ref = .error e →
                mapLookup (multiVerify vs issuers) i.ref = some ⟨i, true, some e⟩)
            ∧ (∀ ks, fetchKeys v i.ref = .ok ks → i.publicKey ∈ ks →
                mapLookup (multiVerify vs issuers) i.ref = some ⟨i, true, none⟩)
            ∧ (∀ ks, fetchKeys v i.ref = .ok ks → i.publicKey ∉ ks →
                mapLookup (multiVerify vs issuers) i.ref = some ⟨i, true, some .keyMissing⟩))
      ∧ (∀ v r g ks, g ≠ [] → (∀ j ∈ g, j.ref = r) → v.supports r = true →
          fetchKeys v r = .ok ks →
          ((mapLookup (urlVerify v g) r).map TrustStatus.error = some none
            ↔ ∀ j ∈ g, j.publicKey ∈ ks)) := by
  have hmain := multiVerify_lookup vs issuers hnd i hi
  refine ⟨?_, ?_, ?_⟩
  · intro hf
    rw [hf] at hmain
    exact hmain
  · intro v hf
    rw [hf] at hmain
    have hs : v.supports i.ref = true := by
      have := List.find?_some hf
      simpa using this
    have hurl : mapLookup (urlVerify v [i]) i.ref = some (statusFor v i.ref [i]) := by
      rw [urlVerify_singleton v i hs]
      simp [mapLookup, List.find?]
    refine ⟨hmain.trans hurl.symm, ?_, ?_, ?_⟩
    · intro e he
      rw [hmain]
      simp [statusFor, he]
    · intro ks hks hmem
      rw [hmain]
      have hall : [i].all (fun j => ks.contains j.publicKey) = true := by
        simp [List.elem_iff, hmem]
      simp [statusFor, hks, hall]
      exact hmem
    · intro ks hks hmem
      rw [hmain]
      have hall : [i].all (fun j => ks.contains j.publicKey) = false := by
        simp [List.elem_iff, hmem]
      simp [statusFor, hks, hall]
      exact hmem
  · intro v r g ks hne hr hs hks
    rw [urlVerify_uniform v r g hne hr hs]
    have hlk : mapLookup [(r, statusFor v r g)] r = some (statusFor v r g) := by
      simp [mapLookup, List.find?]
    rw [hlk]
    simp only [Option.map_some']
    by_cases hall : ∀ j ∈ g, j.publicKey ∈ ks
    · have hb : g.all (fun j => ks.contains j.publicKey) = true :=
        List.all_eq_true.mpr (fun j hj => List.elem_iff.mpr (hall j hj))
      simp only [statusFor, hks]
      rw [if_pos hb]
      exact ⟨fun _ => hall, fun _ => rfl⟩
    · have hb : ¬ (g.all (fun j => ks.contains j.publicKey) = true) := by
        intro hc
        exact hall (fun j hj => List.elem_iff.mp (List.all_eq_true.mp hc j hj))
      simp only [statusFor, hks]
      rw [if_neg hb]
      simp [hall]

/-- C4, witness: one GitHub-style sub-verifier whose fetched set holds the
seen key classifies the reference as trusted. -/
theorem trustResolution_spec_witness :
    mapLookup
        (multiVerify [⟨"github:", fun _ => .ok ["K1"]⟩] [⟨"github:alice", "K1"⟩])
        "github:alice"
      = some ⟨⟨"github:alice", "K1"⟩, true, none⟩ := by
  have h := (trustResolution_spec [⟨"github:", fun _ => .ok ["K1"]⟩]
    [⟨"github:alice", "K1"⟩] (by decide) ⟨"github:alice", "K1"⟩ (by decide)).2.1
    ⟨"github:", fun _ => .ok ["K1"]⟩ rfl
  exact h.2.2.1 ["K1"] rfl (by decide)

/-! The filesystem model for the scanner and the walker.  A `Path` is the
list of names from the scanned root; a `Store` is the ordered log of
manifest-file writes (the filesystem state the walk builds up); an
`FsTree` is the scanned tree, without manifest files (a clean generation
run; on re-runs the manifest file appears as an entry and is skipped by
name, which the entity theorems cover through the name filter). -/

abbrev Path := List String

/-- Store: manifest files written so far, in write order; reading takes
the last write for a path. -/
structure Store where
  writes : List (Path × Manifest)
deriving DecidableEq, Repr

/-- Read the manifest file at `p` (last write wins). -/
def Store.lookup (st : Store) (p : Path) : Option Manifest :=
  (st.writes.reverse.find? (fun w => w.1 == p)).map (·.2)

/-- Write the manifest file at `p`. -/
def Store.write (st : Store) (p : Path) (m : Manifest) : Store :=
  ⟨st.writes ++ [(p, m)]⟩

/-- FsTree: a file with contents, or a directory with named children. -/
inductive FsTree where
  | file (content : String)
  | dir (children : List (String × FsTree))

/-- Ordering of directory entries by name (`os.ReadDir` returns entries
sorted by filename; `WalkPostOrder` additionally sorts). -/
def entryLE (a b : String × FsTree) : Prop := strLe a.1 b.1

instance : DecidableRel entryLE := fun _ _ => inferInstanceAs (Decidable (_ = false))

instance : IsTotal (String × FsTree) entryLE := by
  refine ⟨fun a b => ?_⟩
  by_cases h : goLtb b.1.data a.1.data = true
  · exact Or.inr (goLtb_asymm _ _ h)
  · exact Or.inl (by simpa [entryLE, strLe] using h)

instance : IsTrans (String × FsTree) entryLE :=
  ⟨fun _ _ c h h' => goLtb_false_trans c.1.data _ _ h h'⟩

/-- Directory entries in ascending name order. -/
def sortEntries (cs : List (String × FsTree)) : List (String × FsTree) :=
  List.insertionSort entryLE cs

/-! The pretty-printed save format (`json.MarshalIndent(m, "", "  ")`):
these are the bytes `Save` writes and so the bytes the checksum of a
directory entity is computed over. -/

/-- Two-space indentation at nesting level `n`. -/
def indentOf (n : Nat) : String := ⟨List.replicate (2 * n) ' '⟩

/-- Indented JSON of one `Entity` at nesting level `lvl`. -/
def serializeEntityIndent (lvl : Nat) (e : Entity) : String :=
  "\x7b\n" ++ indentOf (lvl + 1) ++ "\"name\": " ++ goQuote e.name ++ ",\n"
    ++ indentOf (lvl + 1) ++ "\"checksum\": " ++ goQuote e.checksum ++ ",\n"
    ++ indentOf (lvl + 1) ++ "\"isDir\": " ++ (if e.isDir then "true" else "false") ++ "\n"
    ++ indentOf lvl ++ "\x7d"

/-- Indented JSON of the entity slice (an empty array stays `[]`). -/
def serializeEntityListIndent (lvl : Nat) (es : List Entity) : String :=
  if es.isEmpty then "[]"
  else
    "[\n"
      ++ String.intercalate ",\n" (es.map (fun e => indentOf (lvl + 1) ++ serializeEntityIndent (lvl + 1) e))
      ++ "\n" ++ indentOf lvl ++ "]"

/-- Indented JSON of `CertificateData`. -/
def serializeCertificateDataIndent (lvl : Nat) (c : CertificateData) : String :=
  "\x7b\n" ++ indentOf (lvl + 1) ++ "\"publicKey\": " ++ goQuote c.publicKey ++ ",\n"
    ++ indentOf (lvl + 1) ++ "\"signature\": " ++ goQuote c.signature ++ ",\n"
    ++ indentOf (lvl + 1) ++ "\"issuerPublicKey\": " ++ goQuote c.issuerPublicKey ++ ",\n"
    ++ indentOf (lvl + 1) ++ "\"issuerReference\": " ++ goQuote c.issuerRef ++ "\n"
    ++ indentOf lvl ++ "\x7d"

/-- Indented JSON of `AuditorData`. -/
def serializeAuditorDataIndent (lvl : Nat) (a : AuditorData) : String :=
  "\x7b\n" ++ indentOf (lvl + 1) ++ "\"timestamp\": " ++ goQuote a.timestamp ++ ",\n"
    ++ indentOf (lvl + 1) ++ "\"certificate\": " ++ serializeCertificateDataIndent (lvl + 1) a.certificate ++ ",\n"
    ++ indentOf (lvl + 1) ++ "\"manifestSignature\": " ++ goQuote a.manifestSignature ++ "\n"
    ++ indentOf lvl ++ "\x7d"

/-- The bytes `Save` writes: indented JSON of the manifest. -/
def serializeManifestIndent (m : Manifest) : String :=
  "\x7b\n" ++ indentOf 1 ++ "\"entities\": " ++ serializeEntityListIndent 1 m.entities ++ ",\n"
    ++ indentOf 1 ++ "\"hmac\": " ++ goQuote m.hmac
    ++ (match m.auditor with
        | none => ""
        | some a => ",\n" ++ indentOf 1 ++ "\"auditor\": " ++ serializeAuditorDataIndent 1 a)
    ++ "\n\x7d"

/-! The per-child work of `Scanner.scanDirectory`'s worker pool.  `h` is
SHA-256 over file bytes (`calculateChecksum`).  The entity order is the
dispatch order; the workers return results in an arbitrary interleaving,
which `manifest.New`'s sort collapses to the same manifest. -/

/-- One worker job: skip the manifest file by name; hash a file's contents;
for a directory hash its manifest file, which must exist in the store
(`calculateChecksum` fails with an open error otherwise). -/
def childEntity (h : String → String) (mname : String) (p : Path) (st : Store)
    (c : String × FsTree) : Except Unit (Option Entity) :=
  if c.1 = mname then .ok none
  else
    match c.2 with
    | .file content => .ok (some ⟨c.1, h content, false⟩)
    | .dir _ =>
      match st.lookup (p ++ [c.1, mname]) with
      | some mc => .ok (some ⟨c.1, h (serializeManifestIndent mc), true⟩)
      | none => .error ()

/-- The collected entities of one directory scan. -/
def scanEnts (h : String → String) (mname : String) (p : Path) (st : Store) :
    List (String × FsTree) → Except Unit (List Entity)
  | [] => .ok []
  | c :: rest =>
    match childEntity h mname p st c with
    | .error e => .error e
    | .ok eo =>
      match scanEnts h mname p st rest with
      | .error e => .error e
      | .ok es => .ok (eo.toList ++ es)

/-- C9: a non-cached directory scan never records an entity named like the
manifest file, and a directory with no children yields the empty entity
list whose saved manifest carries the HMAC of the empty-entities
serialization. -/
theorem scan_excludes_manifest_entity (hf : HMACFn) (env : Option String)
    (h : String → String) (mname : String) (p : Path) (st : Store)
    (cs : List (String × FsTree)) :
    (∀ ents, scanEnts h mname p st (sortEntries cs) = .ok ents →
        ∀ e ∈ (manifestNew ents).entities, e.name ≠ mname)
      ∧ scanEnts h mname p st (sortEntries []) = .ok []
      ∧ (unsignedProcess hf env (manifestNew [])).entities = []
      ∧ (unsignedProcess hf env (manifestNew [])).hmac
          = hf (hmacKeyOf env) (hmacInput []) := by
  refine ⟨?_, rfl, rfl, rfl⟩
  suffices hs : ∀ l ents, scanEnts h mname p st l = .ok ents →
      ∀ e ∈ ents, e.name ≠ mname by
    intro ents hok e he
    exact hs (sortEntries cs) ents hok e ((sortEnts_perm ents).mem_iff.mp he)
  intro l
  induction l with
  | nil =>
    intro ents hok e he
    simp only [scanEnts] at hok
    cases hok
    cases he
  | cons c rest ih =>
    intro ents hok e he
    simp only [scanEnts] at hok
    cases hc : childEntity h mname p st c with
    | error e' => rw [hc] at hok; cases hok
    | ok eo =>
      rw [hc] at hok
      cases hr : scanEnts h mname p st rest with
      | error e' => rw [hr] at hok; cases hok
      | ok es =>
        rw [hr] at hok
        cases hok
        rcases List.mem_append.mp he with he1 | he2
        · cases eo with
          | none => cases he1
          | some e0 =>
            have he0 : e = e0 := by simpa using he1
            subst he0
            obtain ⟨cn, ct⟩ := c
            unfold childEntity at hc
            dsimp only at hc
            by_cases hn : cn = mname
            · rw [if_pos hn] at hc; cases hc
            · rw [if_neg hn] at hc
              cases ct with
              | file content =>
                cases hc
                simpa using hn
              | dir gs =>
                cases hl : Store.lookup st (p ++ [cn, mname]) with
                | none => rw [hl] at hc; cases hc
                | some mc =>
                  rw [hl] at hc
                  cases hc
                  simpa using hn
        · exact ih es hr e he2

/-- C9, witness: scanning a directory whose only entry is the manifest
file itself yields no entities. -/
theorem scan_excludes_manifest_entity_witness :
    ∀ e ∈ (manifestNew []).entities, e.name ≠ ".bytecheck.manifest" := by
  intro e he
  exact (scan_excludes_manifest_entity toyHmac none (fun s => s) ".bytecheck.manifest"
    [] ⟨[]⟩ [(".bytecheck.manifest", .file "x")]).1 [] rfl e he

/-! Freshness-based reuse (`manifest.LoadManifestIfFresh`, the fresh-check
in `Scanner.scanDirectory`, and the cached short-circuit in
`Generator.Generate`). -/

/-- `LoadManifestIfFresh(path, limit)`: null sentinel when no limit is
configured, when the file does not exist (`age = none`), or when the file
is older than the limit; otherwise `LoadManifest`, whose null sentinel and
errors propagate.  `age` is `time.Since(modTime)`. -/
def loadManifestIfFresh (hf : HMACFn) (env : Option String) (limit age : Option Nat)
    (fs : FileState) : Except LoadResult (Option Manifest) :=
  match limit with
  | none => .ok none
  | some l =>
    match age with
    | none => .ok none
    | some a =>
      if l < a then .ok none
      else
        match loadManifest hf env fs with
        | .noManifest => .ok none
        | .ok m => .ok (some m)
        | e => .error e

/-- ScanStats: the two counters the claim tracks, as deltas of one
directory visit. -/
structure ScanStats where
  cachedDelta : Nat
  dirsDelta : Nat
deriving DecidableEq, Repr

/-- `Scanner.scanDirectory`: a fresh valid manifest is returned as cached
(`IncreaseCachedProcessed`); otherwise the children are scanned and the
new manifest built (`IncreaseDirProcessed`). -/
def scanDirectory (hf : HMACFn) (env : Option String) (h : String → String) (mname : String)
    (limit age : Option Nat) (fs : FileState) (p : Path) (st : Store)
    (cs : List (String × FsTree)) : Except Unit (Manifest × Bool × ScanStats) :=
  match loadManifestIfFresh hf env limit age fs with
  | .error _ => .error ()
  | .ok (some m) => .ok (m, true, ⟨1, 0⟩)
  | .ok none =>
    match scanEnts h mname p st (sortEntries cs) with
    | .error _ => .error ()
    | .ok ents => .ok (manifestNew ents, false, ⟨0, 1⟩)

/-- The per-directory step of `Generator.Generate` with the unsigned
processor: a cached manifest is skipped (no processor, no write);
otherwise the processor saves the manifest. -/
def generateDirStep (hf : HMACFn) (env : Option String) (h : String → String) (mname : String)
    (limit age : Option Nat) (fs : FileState) (p : Path) (st : Store)
    (cs : List (String × FsTree)) : Except Unit (ScanStats × List (Path × Manifest)) :=
  match scanDirectory hf env h mname limit age fs p st cs with
  | .error _ => .error ()
  | .ok (m, cached, stats) =>
    if cached then .ok (stats, [])
    else .ok (stats, [(p ++ [mname], unsignedProcess hf env m)])

/-- C8: with a configured freshness limit, a stored manifest within the
limit that passes its HMAC check makes the generator count the directory
as cached (`cached_processed` +1, `dirs_processed` +0) and produce no
write at all: the manifest file's content is untouched and no processor
runs for the directory. -/
theorem freshness_cache_no_rewrite (hf : HMACFn) (env : Option String)
    (h : String → String) (mname : String) (p : Path) (st : Store)
    (cs : List (String × FsTree)) (fs : FileState) (l a : Nat) (m : Manifest)
    (hfresh : a ≤ l) (hload : loadManifest hf env fs = .ok m) :
    generateDirStep hf env h mname (some l) (some a) fs p st cs = .ok (⟨1, 0⟩, []) := by
  have hnl : ¬ l < a := by omega
  unfold generateDirStep scanDirectory loadManifestIfFresh
  simp [hnl, if_false, hload]

/-- C8, witness: a concrete fresh stored manifest produces the cached
outcome with no writes. -/
theorem freshness_cache_no_rewrite_witness :
    generateDirStep toyHmac none (fun s => s) ".bytecheck.manifest" (some 10) (some 3)
        (.stored ⟨[], manifestHMAC toyHmac none [], none⟩) [] ⟨[]⟩ []
      = .ok (⟨1, 0⟩, []) := by
  exact freshness_cache_no_rewrite toyHmac none (fun s => s) ".bytecheck.manifest"
    [] ⟨[]⟩ [] (.stored ⟨[], manifestHMAC toyHmac none [], none⟩) 10 3
    ⟨[], manifestHMAC toyHmac none [], none⟩ (by omega) (by decide)

/-! The generation walk (`traverse.WalkPostOrder` driving
`Scanner.scanDirectory` with no freshness limit, and the generator's
unsigned save), threaded through the explicit `Store`. -/

/-- Well-formed tree: sibling names are distinct at every level (a
filesystem guarantee). -/
inductive WF : FsTree → Prop where
  | file (c : String) : WF (.file c)
  | dir (cs : List (String × FsTree)) :
      (∀ x ∈ cs, WF x.2) → (cs.map Prod.fst).Nodup → WF (.dir cs)

mutual
/-- The loop of `WalkPostOrder` over the sorted entries of a directory:
recurse into every subdirectory first, in ascending name order (files are
not visited by the walker). -/
def walkGenForest (hf : HMACFn) (env : Option String) (h : String → String)
    (mname : String) (p : Path) (l : List (String × FsTree)) (st : Store) :
    Except Unit Store :=
  match l with
  | [] => .ok st
  | (_, FsTree.file _) :: rest => walkGenForest hf env h mname p rest st
  | (n, FsTree.dir gs) :: rest =>
    match walkGenDir hf env h mname (p ++ [n]) gs st with
    | .error e => .error e
    | .ok st1 => walkGenForest hf env h mname p rest st1
  termination_by sizeOf l
  decreasing_by
    · simp only [List.cons.sizeOf_spec]
      omega
    · simp only [List.cons.sizeOf_spec, Prod.mk.sizeOf_spec, FsTree.dir.sizeOf_spec]
      omega
    · simp only [List.cons.sizeOf_spec]
      omega

/-- One directory of the generation walk: `WalkPostOrder` recursion over
the sorted children, then the walk callback — the non-cached scan of
`scanDirectory` followed by `UnsignedProcessor.Process`, which saves the
manifest to the directory's manifest path. -/
def walkGenDir (hf : HMACFn) (env : Option String) (h : String → String)
    (mname : String) (p : Path) (cs : List (String × FsTree)) (st : Store) :
    Except Unit Store :=
  match walkGenForest hf env h mname p (sortEntries cs) st with
  | .error e => .error e
  | .ok st1 =>
    match scanEnts h mname p st1 (sortEntries cs) with
    | .error e => .error e
    | .ok ents => .ok (st1.write (p ++ [mname]) (unsignedProcess hf env (manifestNew ents)))
  termination_by sizeOf cs + 1
  decreasing_by
    simp only [sortEntries]
    rw [(List.perm_insertionSort entryLE cs).sizeOf_eq_sizeOf]
    omega
end

mutual
/-- The entity list a directory's final manifest holds, by the pure Merkle
recursion (the specification side of the refinement): a file child is
hashed by content, a directory child by the pretty-printed bytes of its
own final manifest; the manifest file's name is skipped. -/
def merkleEnts (hf : HMACFn) (env : Option String) (h : String → String)
    (mname : String) (l : List (String × FsTree)) : List Entity :=
  match l with
  | [] => []
  | (n, FsTree.file content) :: rest =>
    (if n = mname then [] else [⟨n, h content, false⟩])
      ++ merkleEnts hf env h mname rest
  | (n, FsTree.dir gs) :: rest =>
    (if n = mname then []
      else [⟨n, h (serializeManifestIndent (merkleDir hf env h mname gs)), true⟩])
      ++ merkleEnts hf env h mname rest
  termination_by sizeOf l
  decreasing_by
    · simp only [List.cons.sizeOf_spec]
      omega
    · simp only [List.cons.sizeOf_spec, Prod.mk.sizeOf_spec, FsTree.dir.sizeOf_spec]
      omega
    · simp only [List.cons.sizeOf_spec]
      omega

/-- The final manifest of a directory with children `cs`. -/
def merkleDir (hf : HMACFn) (env : Option String) (h : String → String)
    (mname : String) (cs : List (String × FsTree)) : Manifest :=
  unsignedProcess hf env (manifestNew (merkleEnts hf env h mname (sortEntries cs)))
  termination_by sizeOf cs + 1
  decreasing_by
    simp only [sortEntries]
    rw [(List.perm_insertionSort entryLE cs).sizeOf_eq_sizeOf]
    omega
end

mutual
/-- The write log the walk is expected to produce below a forest. -/
def specForest (hf : HMACFn) (env : Option String) (h : String → String)
    (mname : String) (l : List (String × FsTree)) (p : Path) :
    List (Path × Manifest) :=
  match l with
  | [] => []
  | (_, FsTree.file _) :: rest => specForest hf env h mname rest p
  | (n, FsTree.dir gs) :: rest =>
    specDir hf env h mname gs (p ++ [n]) ++ specForest hf env h mname rest p
  termination_by sizeOf l
  decreasing_by
    · simp only [List.cons.sizeOf_spec]
      omega
    · simp only [List.cons.sizeOf_spec, Prod.mk.sizeOf_spec, FsTree.dir.sizeOf_spec]
      omega
    · simp only [List.cons.sizeOf_spec]
      omega

/-- The write log the walk is expected to produce for one directory: the
sorted children's subtree logs, then the directory's own manifest write. -/
def specDir (hf : HMACFn) (env : Option String) (h : String → String)
    (mname : String) (cs : List (String × FsTree)) (p : Path) :
    List (Path × Manifest) :=
  specForest hf env h mname (sortEntries cs) p
    ++ [(p ++ [mname], merkleDir hf env h mname cs)]
  termination_by sizeOf cs + 1
  decreasing_by
    simp only [sortEntries]
    rw [(List.perm_insertionSort entryLE cs).sizeOf_eq_sizeOf]
    omega
end

/-! C3 proof machinery: reading the write log, the shape of the expected
log, and the refinement of the walk to it. -/

/-- `goLtb` is irreflexive. -/
theorem goLtb_irrefl : ∀ l, goLtb l l = false := by
  intro l
  induction l with
  | nil => rfl
  | cons c t ih =>
    simp only [goLtb]
    rw [if_neg (lt_irrefl _), if_neg (lt_irrefl _)]
    exact ih

/-- The entry order is reflexive. -/
theorem entryLE_refl (x : String × FsTree) : entryLE x x :=
  goLtb_irrefl x.1.data

/-- Lists have positive size. -/
theorem list_sizeOf_pos {α : Type} [SizeOf α] (l : List α) : 1 ≤ sizeOf l := by
  cases l with
  | nil => simp
  | cons a t => simp only [List.cons.sizeOf_spec]; omega

/-- Reading an appended write log: the later half wins when it has the
path. -/
theorem store_lookup_append (a b : List (Path × Manifest)) (r : Path) :
    Store.lookup ⟨a ++ b⟩ r = (Store.lookup ⟨b⟩ r).or (Store.lookup ⟨a⟩ r) := by
  unfold Store.lookup
  dsimp only
  rw [List.reverse_append, List.find?_append]
  cases b.reverse.find? (fun w => w.1 == r) with
  | none => simp
  | some w => simp

/-- A hit in the later half of the log is the read result. -/
theorem store_lookup_append_some {a b : List (Path × Manifest)} {r : Path}
    {m : Manifest} (hb : Store.lookup ⟨b⟩ r = some m) :
    Store.lookup ⟨a ++ b⟩ r = some m := by
  rw [store_lookup_append, hb]
  rfl

/-- A miss in the later half of the log defers to the earlier half. -/
theorem store_lookup_append_none {a b : List (Path × Manifest)} {r : Path}
    (hb : Store.lookup ⟨b⟩ r = none) :
    Store.lookup ⟨a ++ b⟩ r = Store.lookup ⟨a⟩ r := by
  rw [store_lookup_append, hb]
  rfl

/-- Reading a one-write log at its own path. -/
theorem store_lookup_single_self (r : Path) (m : Manifest) :
    Store.lookup ⟨[(r, m)]⟩ r = some m := by
  unfold Store.lookup
  simp

/-- Shape of the expected log: every write under a forest sits strictly
below the root path through some entry's name, and every write of a
directory block sits below the directory's path. -/
theorem spec_shape (hf : HMACFn) (env : Option String) (h : String → String)
    (mname : String) :
    ∀ N : Nat,
      (∀ l p r m, sizeOf l ≤ N → (r, m) ∈ specForest hf env h mname l p →
        ∃ x ∈ l, ∃ s, r = p ++ x.1 :: s)
      ∧ (∀ cs q r m, sizeOf cs < N → (r, m) ∈ specDir hf env h mname cs q →
        ∃ s, r = q ++ s) := by
  intro N
  induction N with
  | zero =>
    refine ⟨?_, ?_⟩
    · intro l p r m hsz _
      have := list_sizeOf_pos l
      omega
    · intro cs q r m hsz _
      omega
  | succ N ih =>
    refine ⟨?_, ?_⟩
    · intro l p r m hsz hmem
      cases l with
      | nil =>
        simp only [specForest] at hmem
        cases hmem
      | cons c rest =>
        obtain ⟨n, t⟩ := c
        cases t with
        | file cc =>
          simp only [specForest] at hmem
          simp only [List.cons.sizeOf_spec, Prod.mk.sizeOf_spec] at hsz
          obtain ⟨x, hx, s, hr⟩ := ih.1 rest p r m (by omega) hmem
          exact ⟨x, List.mem_cons_of_mem _ hx, s, hr⟩
        | dir gs =>
          simp only [specForest] at hmem
          simp only [List.cons.sizeOf_spec, Prod.mk.sizeOf_spec,
            FsTree.dir.sizeOf_spec] at hsz
          have hrp := list_sizeOf_pos rest
          rcases List.mem_append.mp hmem with hml | hmr
          · obtain ⟨s, hr⟩ := ih.2 gs (p ++ [n]) r m (by omega) hml
            refine ⟨(n, FsTree.dir gs), List.mem_cons_self _ _, s, ?_⟩
            rw [hr]
            simp
          · obtain ⟨x, hx, s, hr⟩ := ih.1 rest p r m (by omega) hmr
            exact ⟨x, List.mem_cons_of_mem _ hx, s, hr⟩
    · intro cs q r m hsz hmem
      simp only [specDir] at hmem
      rcases List.mem_append.mp hmem with hml | hmr
      · have hszS : sizeOf (sortEntries cs) ≤ N := by
          have := (List.perm_insertionSort entryLE cs).sizeOf_eq_sizeOf
          simp only [sortEntries]
          omega
        obtain ⟨x, _, s, hr⟩ := ih.1 (sortEntries cs) q r m hszS hml
        exact ⟨x.1 :: s, hr⟩
      · have : r = q ++ [mname] := by
          have := List.mem_singleton.mp hmr
          exact congrArg Prod.fst this
        exact ⟨[mname], this⟩

/-- Every directory entry's final manifest write occurs in the forest's
expected log. -/
theorem specForest_mem_child (hf : HMACFn) (env : Option String)
    (h : String → String) (mname : String) (p : Path) :
    ∀ (l : List (String × FsTree)) (n : String) (gs : List (String × FsTree)),
      (n, FsTree.dir gs) ∈ l →
      (p ++ [n, mname], merkleDir hf env h mname gs) ∈ specForest hf env h mname l p := by
  intro l
  induction l with
  | nil =>
    intro n gs hmem
    cases hmem
  | cons c rest ih =>
    intro n gs hmem
    rcases List.mem_cons.mp hmem with hc | ht
    · cases hc
      simp only [specForest, specDir]
      apply List.mem_append_left
      apply List.mem_append_right
      simp
    · obtain ⟨cn, ct⟩ := c
      cases ct with
      | file cc =>
        simp only [specForest]
        exact ih n gs ht
      | dir cgs =>
        simp only [specForest]
        exact List.mem_append_right _ (ih n gs ht)

/-- Every directory entry not named like the manifest file contributes its
Merkle entity — whose checksum hashes the child's manifest file bytes —
to the Merkle entity list. -/
theorem merkleEnts_mem_child (hf : HMACFn) (env : Option String)
    (h : String → String) (mname : String) :
    ∀ (l : List (String × FsTree)) (n : String) (gs : List (String × FsTree)),
      (n, FsTree.dir gs) ∈ l → n ≠ mname →
      (⟨n, h (serializeManifestIndent (merkleDir hf env h mname gs)), true⟩ : Entity)
        ∈ merkleEnts hf env h mname l := by
  intro l
  induction l with
  | nil =>
    intro n gs hmem _
    cases hmem
  | cons c rest ih =>
    intro n gs hmem hne
    rcases List.mem_cons.mp hmem with hc | ht
    · cases hc
      simp only [merkleEnts]
      rw [if_neg hne]
      exact List.mem_append_left _ (List.mem_singleton.mpr rfl)
    · obtain ⟨cn, ct⟩ := c
      cases ct with
      | file cc =>
        simp only [merkleEnts]
        exact List.mem_append_right _ (ih n gs ht hne)
      | dir cgs =>
        simp only [merkleEnts]
        exact List.mem_append_right _ (ih n gs ht hne)

/-- With distinct sibling names, reading a child directory's manifest path
from the forest's expected log yields exactly the child's final (Merkle)
manifest. -/
theorem specForest_lookup (hf : HMACFn) (env : Option String)
    (h : String → String) (mname : String) (p : Path) :
    ∀ (l : List (String × FsTree)) (n : String) (gs : List (String × FsTree)),
      (l.map Prod.fst).Nodup → (n, FsTree.dir gs) ∈ l →
      Store.lookup ⟨specForest hf env h mname l p⟩ (p ++ [n, mname])
        = some (merkleDir hf env h mname gs) := by
  intro l
  induction l with
  | nil =>
    intro n gs _ hmem
    cases hmem
  | cons c rest ih =>
    intro n gs hnd hmem
    rw [List.map_cons] at hnd
    have hh := List.nodup_cons.mp hnd
    rcases List.mem_cons.mp hmem with hc | ht
    · cases hc
      have hnn : n ∉ rest.map Prod.fst := hh.1
      simp only [specForest, specDir]
      have hnone : Store.lookup ⟨specForest hf env h mname rest p⟩ (p ++ [n, mname]) = none := by
        have hf0 : (specForest hf env h mname rest p).reverse.find?
            (fun w => w.1 == p ++ [n, mname]) = none := by
          rw [List.find?_eq_none]
          intro x hx
          obtain ⟨r, mm⟩ := x
          have hx2 : (r, mm) ∈ specForest hf env h mname rest p := List.mem_reverse.mp hx
          obtain ⟨y, hy, s, hr⟩ :=
            (spec_shape hf env h mname (sizeOf rest)).1 rest p r mm (le_refl _) hx2
          intro hbeq
          have heq : r = p ++ [n, mname] := by simpa using hbeq
          rw [hr] at heq
          have hcs : y.1 :: s = [n, mname] := List.append_cancel_left heq
          injection hcs with hy1 hy2
          exact hnn (List.mem_map.mpr ⟨y, hy, hy1⟩)
        unfold Store.lookup
        rw [hf0]
        rfl
      rw [store_lookup_append_none hnone]
      apply store_lookup_append_some
      have hpe : p ++ [n] ++ [mname] = p ++ [n, mname] := by simp
      rw [← hpe]
      exact store_lookup_single_self _ _
    · obtain ⟨cn, ct⟩ := c
      cases ct with
      | file cc =>
        simp only [specForest]
        exact ih n gs hh.2 ht
      | dir cgs =>
        simp only [specForest]
        exact store_lookup_append_some (ih n gs hh.2 ht)

/-- When every child directory's manifest is readable from the store, the
scan computes exactly the Merkle entity list. -/
theorem scanEnts_eq_merkleEnts (hf : HMACFn) (env : Option String)
    (h : String → String) (mname : String) (p : Path) (st : Store) :
    ∀ l : List (String × FsTree),
      (∀ n gs, (n, FsTree.dir gs) ∈ l →
        st.lookup (p ++ [n, mname]) = some (merkleDir hf env h mname gs)) →
      scanEnts h mname p st l = .ok (merkleEnts hf env h mname l) := by
  intro l
  induction l with
  | nil =>
    intro _
    simp [scanEnts, merkleEnts]
  | cons c rest ih =>
    intro hlook
    have hrest := ih (fun n gs hm => hlook n gs (List.mem_cons_of_mem _ hm))
    obtain ⟨cn, ct⟩ := c
    cases ct with
    | file cc =>
      by_cases hn : cn = mname
      · subst hn
        have hce : childEntity h cn p st (cn, FsTree.file cc) = .ok none := by
          simp [childEntity]
        simp [scanEnts, hce, hrest, merkleEnts]
      · have hce : childEntity h mname p st (cn, FsTree.file cc)
            = .ok (some ⟨cn, h cc, false⟩) := by
          simp [childEntity, hn]
        simp [scanEnts, hce, hrest, merkleEnts, hn]
    | dir gs =>
      by_cases hn : cn = mname
      · subst hn
        have hce : childEntity h cn p st (cn, FsTree.dir gs) = .ok none := by
          simp [childEntity]
        simp [scanEnts, hce, hrest, merkleEnts]
      · have hl := hlook cn gs (List.mem_cons_self _ _)
        have hce : childEntity h mname p st (cn, FsTree.dir gs)
            = .ok (some ⟨cn, h (serializeManifestIndent (merkleDir hf env h mname gs)), true⟩) := by
          simp [childEntity, hn, hl]
        simp [scanEnts, hce, hrest, merkleEnts, hn]

/-- The walk refines the expected log: on a well-formed tree it succeeds
and appends exactly the expected writes, post-order. -/
theorem walkGen_ok (hf : HMACFn) (env : Option String) (h : String → String)
    (mname : String) :
    ∀ N : Nat,
      (∀ l p st, sizeOf l ≤ N → (∀ x ∈ l, WF x.2) →
        walkGenForest hf env h mname p l st
          = .ok ⟨st.writes ++ specForest hf env h mname l p⟩)
      ∧ (∀ cs p st, sizeOf cs < N → WF (.dir cs) →
        walkGenDir hf env h mname p cs st
          = .ok ⟨st.writes ++ specDir hf env h mname cs p⟩) := by
  intro N
  induction N with
  | zero =>
    refine ⟨?_, ?_⟩
    · intro l p st hsz _
      have := list_sizeOf_pos l
      omega
    · intro cs p st hsz _
      omega
  | succ N ih =>
    have hF : ∀ l p st, sizeOf l ≤ N + 1 → (∀ x ∈ l, WF x.2) →
        walkGenForest hf env h mname p l st
          = .ok ⟨st.writes ++ specForest hf env h mname l p⟩ := by
      intro l p st hsz hwf
      cases l with
      | nil =>
        simp only [walkGenForest, specForest, List.append_nil]
      | cons c rest =>
        obtain ⟨n, t⟩ := c
        cases t with
        | file cc =>
          simp only [List.cons.sizeOf_spec, Prod.mk.sizeOf_spec] at hsz
          simp only [walkGenForest, specForest]
          exact ih.1 rest p st (by omega) (fun x hx => hwf x (List.mem_cons_of_mem _ hx))
        | dir gs =>
          simp only [List.cons.sizeOf_spec, Prod.mk.sizeOf_spec,
            FsTree.dir.sizeOf_spec] at hsz
          have hrp := list_sizeOf_pos rest
          have hwfd : WF (.dir gs) := hwf (n, FsTree.dir gs) (List.mem_cons_self _ _)
          have hdir := ih.2 gs (p ++ [n]) st (by omega) hwfd
          simp only [walkGenForest, specForest, hdir]
          rw [ih.1 rest p ⟨st.writes ++ specDir hf env h mname gs (p ++ [n])⟩ (by omega)
            (fun x hx => hwf x (List.mem_cons_of_mem _ hx))]
          simp [List.append_assoc]
    refine ⟨hF, ?_⟩
    intro cs p st hsz hwf
    cases hwf with
    | dir _ hwfc hnd =>
      have hwfS : ∀ x ∈ sortEntries cs, WF x.2 :=
        fun x hx => hwfc x (((List.perm_insertionSort entryLE cs).mem_iff).mp hx)
      have hszS : sizeOf (sortEntries cs) ≤ N + 1 := by
        have := (List.perm_insertionSort entryLE cs).sizeOf_eq_sizeOf
        simp only [sortEntries]
        omega
      have hforest := hF (sortEntries cs) p st hszS hwfS
      have hndS : ((sortEntries cs).map Prod.fst).Nodup :=
        (((List.perm_insertionSort entryLE cs).map Prod.fst).nodup_iff).mpr hnd
      have hscan := scanEnts_eq_merkleEnts hf env h mname p
        ⟨st.writes ++ specForest hf env h mname (sortEntries cs) p⟩ (sortEntries cs)
        (fun n gs hm =>
          store_lookup_append_some (specForest_lookup hf env h mname p (sortEntries cs) n gs hndS hm))
      simp only [walkGenDir, hforest, hscan]
      simp [Store.write, specDir, merkleDir, List.append_assoc]

/-- In a sorted list, two members in strictly ascending order form a
sublist in that order. -/
theorem sorted_pair_sublist :
    ∀ (l : List (String × FsTree)) (x1 x2 : String × FsTree),
      List.Sorted entryLE l → x1 ∈ l → x2 ∈ l → ¬ entryLE x2 x1 →
      List.Sublist [x1, x2] l := by
  intro l
  induction l with
  | nil =>
    intro x1 x2 _ h1 _ _
    cases h1
  | cons a t ih =>
    intro x1 x2 hs h1 h2 hn
    have hsc := List.sorted_cons.mp hs
    rcases List.mem_cons.mp h1 with he1 | ht1
    · subst he1
      have ht2 : x2 ∈ t := by
        rcases List.mem_cons.mp h2 with rfl | ht2
        · exact absurd (entryLE_refl x2) hn
        · exact ht2
      exact List.Sublist.cons₂ x1 (List.singleton_sublist.mpr ht2)
    · have ht2 : x2 ∈ t := by
        rcases List.mem_cons.mp h2 with rfl | ht2
        · exact absurd (hsc.1 x1 ht1) hn
        · exact ht2
      exact List.Sublist.cons a (ih x1 x2 hsc.2 ht1 ht2 hn)

/-- Two sibling directory entries in list order put their manifest writes
in the same order into the forest's expected log. -/
theorem spec_pair_sublist (hf : HMACFn) (env : Option String)
    (h : String → String) (mname : String) (p : Path) :
    ∀ (l : List (String × FsTree)) (n1 gs1 n2 gs2),
      List.Sublist [(n1, FsTree.dir gs1), (n2, FsTree.dir gs2)] l →
      List.Sublist
        [(p ++ [n1, mname], merkleDir hf env h mname gs1),
         (p ++ [n2, mname], merkleDir hf env h mname gs2)]
        (specForest hf env h mname l p) := by
  intro l
  induction l with
  | nil =>
    intro n1 gs1 n2 gs2 hsub
    simp at hsub
  | cons a t ih =>
    intro n1 gs1 n2 gs2 hsub
    cases hsub with
    | cons _ hsub2 =>
      have hrec := ih n1 gs1 n2 gs2 hsub2
      obtain ⟨an, ct⟩ := a
      cases ct with
      | file cc =>
        simp only [specForest]
        exact hrec
      | dir ags =>
        simp only [specForest]
        exact hrec.trans (List.sublist_append_right _ _)
    | cons₂ _ hsub2 =>
      simp only [specForest]
      have h1 : (p ++ [n1, mname], merkleDir hf env h mname gs1)
          ∈ specDir hf env h mname gs1 (p ++ [n1]) := by
        simp only [specDir]
        apply List.mem_append_right
        simp
      have h2 : (p ++ [n2, mname], merkleDir hf env h mname gs2)
          ∈ specForest hf env h mname t p :=
        specForest_mem_child hf env h mname p t n2 gs2 (List.singleton_sublist.mp hsub2)
      exact List.Sublist.append (List.singleton_sublist.mpr h1) (List.singleton_sublist.mpr h2)

/-- C3: on a well-formed tree (distinct sibling names) the generation walk
visits directories in post-order with siblings in ascending name order:
(1) the walk succeeds and its write log is exactly the expected post-order
log, for every starting store; (2) every child directory's manifest write
strictly precedes the parent's own manifest write in that log, so the
child's manifest is persisted before the parent's entity for it is
computed; (3) the parent's entity for a child directory carries as
checksum the hash of the child's saved manifest file bytes (the indented
JSON `Save` writes), not a hash of the child's tree; (4) the manifest
writes of two sibling directories appear in ascending name order. -/
theorem postOrder_spec (hf : HMACFn) (env : Option String) (h : String → String)
    (mname : String) (cs : List (String × FsTree)) (p : Path)
    (hwf : WF (.dir cs)) :
    (∀ st : Store, walkGenDir hf env h mname p cs st
        = .ok ⟨st.writes ++ specDir hf env h mname cs p⟩)
    ∧ (∀ n gs, (n, FsTree.dir gs) ∈ cs →
        List.Sublist
          [(p ++ [n, mname], merkleDir hf env h mname gs),
           (p ++ [mname], merkleDir hf env h mname cs)]
          (specDir hf env h mname cs p))
    ∧ (∀ n gs, (n, FsTree.dir gs) ∈ cs → n ≠ mname →
        (⟨n, h (serializeManifestIndent (merkleDir hf env h mname gs)), true⟩ : Entity)
          ∈ (merkleDir hf env h mname cs).entities)
    ∧ (∀ n1 gs1 n2 gs2, (n1, FsTree.dir gs1) ∈ cs → (n2, FsTree.dir gs2) ∈ cs →
        strLt n1 n2 →
        List.Sublist
          [(p ++ [n1, mname], merkleDir hf env h mname gs1),
           (p ++ [n2, mname], merkleDir hf env h mname gs2)]
          (specDir hf env h mname cs p)) := by
  refine ⟨?_, ?_, ?_, ?_⟩
  · intro st
    exact (walkGen_ok hf env h mname (sizeOf cs + 1)).2 cs p st (by omega) hwf
  · intro n gs hm
    have hmemS : (p ++ [n, mname], merkleDir hf env h mname gs)
        ∈ specForest hf env h mname (sortEntries cs) p :=
      specForest_mem_child hf env h mname p (sortEntries cs) n gs
        (((List.perm_insertionSort entryLE cs).mem_iff).mpr hm)
    simp only [specDir]
    exact List.Sublist.append (List.singleton_sublist.mpr hmemS) (List.Sublist.refl _)
  · intro n gs hm hne
    have hmemE := merkleEnts_mem_child hf env h mname (sortEntries cs) n gs
      (((List.perm_insertionSort entryLE cs).mem_iff).mpr hm) hne
    have hent : (merkleDir hf env h mname cs).entities
        = sortEnts (merkleEnts hf env h mname (sortEntries cs)) := by
      simp only [merkleDir]
      rfl
    rw [hent]
    exact ((sortEnts_perm _).mem_iff).mpr hmemE
  · intro n1 gs1 n2 gs2 hm1 hm2 hlt
    have hlt2 : goLtb n1.data n2.data = true := hlt
    have hnle : ¬ entryLE (n2, FsTree.dir gs2) (n1, FsTree.dir gs1) := by
      intro hcon
      have hc2 : goLtb n1.data n2.data = false := hcon
      rw [hlt2] at hc2
      cases hc2
    have hpair := sorted_pair_sublist (sortEntries cs) (n1, FsTree.dir gs1)
      (n2, FsTree.dir gs2) (List.sorted_insertionSort entryLE cs)
      (((List.perm_insertionSort entryLE cs).mem_iff).mpr hm1)
      (((List.perm_insertionSort entryLE cs).mem_iff).mpr hm2) hnle
    have hlog := spec_pair_sublist hf env h mname p (sortEntries cs) n1 gs1 n2 gs2 hpair
    simp only [specDir]
    exact hlog.trans (List.sublist_append_left _ _)

/-- C3, witness: a small concrete tree — one subdirectory and one file —
walked from the empty store produces exactly the expected post-order
log. -/
theorem postOrder_spec_witness :
    walkGenDir toyHmac none (fun s => s) "m" []
        [("b", FsTree.dir []), ("a", FsTree.file "x")] ⟨[]⟩
      = .ok ⟨specDir toyHmac none (fun s => s) "m"
          [("b", FsTree.dir []), ("a", FsTree.file "x")] []⟩ := by
  have hwf : WF (FsTree.dir [("b", FsTree.dir []), ("a", FsTree.file "x")]) := by
    refine WF.dir _ ?_ ?_
    · intro x hx
      rcases List.mem_cons.mp hx with rfl | hx2
      · exact WF.dir [] (fun y hy => absurd hy (List.not_mem_nil y)) (by decide)
      · rcases List.mem_cons.mp hx2 with rfl | hx3
        · exact WF.file "x"
        · cases hx3
    · decide
  have hthm := postOrder_spec toyHmac none (fun s => s) "m"
    [("b", FsTree.dir []), ("a", FsTree.file "x")] [] hwf
  simpa using hthm.1 ⟨[]⟩

end Bytecheck
